import Mathlib

/-!
Verification of the layered asset overlay / conflict-resolution engine of
BhModLoaderCore (src/core/worker/: gamefiles.py, gameswf.py, langbin.py,
bnkhandler.py, mod.py) against its natural-language specification.

The Python code is shallowly embedded: each handler's mutable object state
becomes a Lean structure, each method a pure function from state to state
(fallible methods return `Option`), and the filesystem contents touched by a
handler become explicit components of its state (live file bytes, backup
copies in the cache directory).  External collaborators (the wwiseutil
unpack/repack tool) become function parameters.  Python `dict`s are embedded
as insertion-ordered association lists, `set`s as duplicate-free lists.
-/

namespace BhModLoader

/-- File contents are byte sequences. -/
abbrev Bytes := List Nat

/-! ### Association lists (embedding of Python `dict`) -/

/-- Lookup in an association list (first matching key, like a Python dict
whose keys are unique). -/
def alget {α β : Type} [DecidableEq α] : List (α × β) → α → Option β
  | [], _ => none
  | (k', v') :: rest, k => if k = k' then some v' else alget rest k

/-- `d[k] = v`: replace the value at the first occurrence of `k`, keeping its
position, or append `(k, v)` — Python dict assignment semantics. -/
def alset {α β : Type} [DecidableEq α] : List (α × β) → α → β → List (α × β)
  | [], k, v => [(k, v)]
  | (k', v') :: rest, k, v =>
    if k = k' then (k, v) :: rest else (k', v') :: alset rest k v

/-- `d.pop(k, None)` / `del d[k]`: remove the first occurrence of key `k`. -/
def alerase {α β : Type} [DecidableEq α] : List (α × β) → α → List (α × β)
  | [], _ => []
  | (k', v') :: rest, k => if k = k' then rest else (k', v') :: alerase rest k

/-- The keys of an association list, in order. -/
def keysOf {α β : Type} (l : List (α × β)) : List α := l.map Prod.fst

/-- Functional update of a total map. -/
def setFun {β : Type} (f : String → β) (k : String) (v : β) : String → β :=
  fun x => if x = k then v else f x

theorem setFun_self {β : Type} (f : String → β) (k : String) (v : β) :
    setFun f k v k = v := by
  simp [setFun]

theorem setFun_ne {β : Type} (f : String → β) {x k : String} (v : β) (h : x ≠ k) :
    setFun f k v x = f x := by
  simp [setFun, h]

/-- Python `sorted` on strings (ascending lexicographic order), as insertion
sort. -/
def sinsert (x : String) : List String → List String
  | [] => [x]
  | y :: rest => if x < y then x :: y :: rest else y :: sinsert x rest

/-- Python `sorted` on a list of strings. -/
def ssort : List String → List String
  | [] => []
  | x :: rest => sinsert x (ssort rest)

/-- Python `str.endswith`, as a suffix test on the character list (kept
kernel-computable, unlike `String.endsWith`). -/
def strEndsWith (s suffix : String) : Bool := suffix.data.isSuffixOf s.data

/-- Python `str.startswith`, as a character-list test. -/
def strStartsWith (s pre : String) : Bool := pre.data.isPrefixOf s.data

/-- `os.path.basename`: the final path component, splitting on both `/` and
`\` (the loader runs on Windows, where `os.path` treats both as separators). -/
def basename (s : String) : String :=
  s.data.foldl (fun acc c => if c = '/' ∨ c = '\\' then "" else acc.push c) ""

/-! ### Association-list lemmas -/

theorem alget_alset_self {α β : Type} [DecidableEq α] (l : List (α × β)) (k : α) (v : β) :
    alget (alset l k v) k = some v := by
  induction l with
  | nil => simp [alset, alget]
  | cons p rest ih =>
    by_cases h : k = p.1
    · simp [alset, alget, h]
    · simp [alset, alget, h, ih]

theorem alget_alset_ne {α β : Type} [DecidableEq α] {l : List (α × β)} {k k' : α} {v : β}
    (h : k ≠ k') : alget (alset l k' v) k = alget l k := by
  induction l with
  | nil => simp [alset, alget, h]
  | cons p rest ih =>
    by_cases h' : k' = p.1
    · subst h'
      simp [alset, alget, h]
    · by_cases h'' : k = p.1
      · simp [alset, alget, h', h'']
      · simp [alset, alget, h', h'', ih]

theorem alget_alerase_ne {α β : Type} [DecidableEq α] {l : List (α × β)} {k k' : α}
    (h : k ≠ k') : alget (alerase l k') k = alget l k := by
  induction l with
  | nil => simp [alerase]
  | cons p rest ih =>
    by_cases h' : k' = p.1
    · subst h'
      simp [alerase, alget, h]
    · by_cases h'' : k = p.1
      · simp [alerase, alget, h', h'']
      · simp [alerase, alget, h', h'', ih]

theorem mem_of_alget {α β : Type} [DecidableEq α] {l : List (α × β)} {k : α} {v : β}
    (h : alget l k = some v) : (k, v) ∈ l := by
  induction l with
  | nil => simp [alget] at h
  | cons p rest ih =>
    by_cases h' : k = p.1
    · subst h'
      simp [alget] at h
      subst h
      simp
    · simp [alget, h'] at h
      exact List.mem_cons_of_mem _ (ih h)

theorem nodup_keys_cons {α β : Type} {p : α × β} {rest : List (α × β)}
    (hnd : (keysOf (p :: rest)).Nodup) :
    p.1 ∉ keysOf rest ∧ (keysOf rest).Nodup := by
  rw [keysOf, List.map_cons] at hnd
  exact List.nodup_cons.mp hnd

theorem mem_keysOf_of_mem {α β : Type} {l : List (α × β)} {p : α × β}
    (h : p ∈ l) : p.1 ∈ keysOf l :=
  List.mem_map.mpr ⟨p, h, rfl⟩

theorem alget_of_mem_nodup {α β : Type} [DecidableEq α] {l : List (α × β)} {k : α} {v : β}
    (hnd : (keysOf l).Nodup) (h : (k, v) ∈ l) : alget l k = some v := by
  induction l with
  | nil => simp at h
  | cons p rest ih =>
    have hnd2 := nodup_keys_cons hnd
    rcases List.mem_cons.mp h with h | h
    · subst h
      simp [alget]
    · have hk : k ≠ p.1 := by
        intro he
        exact hnd2.1 (he ▸ mem_keysOf_of_mem h)
      simp [alget, hk]
      exact ih hnd2.2 h

theorem mem_of_mem_alerase {α β : Type} [DecidableEq α] {l : List (α × β)} {k : α}
    {p : α × β} (h : p ∈ alerase l k) : p ∈ l := by
  induction l with
  | nil => simp [alerase] at h
  | cons q rest ih =>
    by_cases h' : k = q.1
    · simp [alerase, h'] at h
      exact List.mem_cons_of_mem _ h
    · simp [alerase, h'] at h
      rcases h with h | h
      · exact List.mem_cons.mpr (Or.inl h)
      · exact List.mem_cons_of_mem _ (ih h)

theorem alerase_of_not_mem {α β : Type} [DecidableEq α] {l : List (α × β)} {k : α}
    (h : alget l k = none) : alerase l k = l := by
  induction l with
  | nil => simp [alerase]
  | cons p rest ih =>
    by_cases h' : k = p.1
    · simp [alget, h'] at h
    · simp [alget, h'] at h
      simp [alerase, h', ih h]

theorem alget_eq_none_iff {α β : Type} [DecidableEq α] {l : List (α × β)} {k : α} :
    alget l k = none ↔ k ∉ keysOf l := by
  induction l with
  | nil => simp [alget, keysOf]
  | cons p rest ih =>
    by_cases h' : k = p.1
    · subst h'
      simp [alget, keysOf]
    · simp [alget, keysOf, h', ih]

theorem keysOf_alset_of_mem {α β : Type} [DecidableEq α] {l : List (α × β)} {k : α} (v : β)
    (h : k ∈ keysOf l) : keysOf (alset l k v) = keysOf l := by
  induction l with
  | nil => simp [keysOf] at h
  | cons p rest ih =>
    by_cases h' : k = p.1
    · subst h'
      simp [alset, keysOf]
    · rw [keysOf, List.map_cons] at h
      rcases List.mem_cons.mp h with h | h
      · exact absurd h h'
      · have hk : k ∈ keysOf rest := by simpa [keysOf] using h
        have := ih hk
        simp only [alset, if_neg h', keysOf, List.map_cons] at this ⊢
        rw [this]

theorem keysOf_alset_of_not_mem {α β : Type} [DecidableEq α] {l : List (α × β)} {k : α}
    (v : β) (h : k ∉ keysOf l) : keysOf (alset l k v) = keysOf l ++ [k] := by
  induction l with
  | nil => simp [alset, keysOf]
  | cons p rest ih =>
    rw [keysOf, List.map_cons] at h
    have h1 : k ≠ p.1 := fun he => h (he ▸ List.mem_cons_self _ _)
    have h2 : k ∉ keysOf rest := fun hm => h (List.mem_cons_of_mem _ hm)
    simp only [alset, if_neg h1, keysOf, List.map_cons] at *
    rw [ih h2]
    simp [keysOf]

theorem keysOf_alset_nodup {α β : Type} [DecidableEq α] {l : List (α × β)} (k : α) (v : β)
    (hnd : (keysOf l).Nodup) : (keysOf (alset l k v)).Nodup := by
  by_cases h : k ∈ keysOf l
  · rw [keysOf_alset_of_mem v h]; exact hnd
  · rw [keysOf_alset_of_not_mem v h, List.nodup_append]
    refine ⟨hnd, List.nodup_singleton _, ?_⟩
    intro a ha hb
    simp at hb
    subst hb
    exact h ha

theorem keysOf_alerase_sublist {α β : Type} [DecidableEq α] (l : List (α × β)) (k : α) :
    (keysOf (alerase l k)).Sublist (keysOf l) := by
  induction l with
  | nil => simp [alerase]
  | cons p rest ih =>
    by_cases h' : k = p.1
    · simp only [alerase, if_pos h', keysOf, List.map_cons]
      exact List.sublist_cons_self _ _
    · simp only [alerase, if_neg h', keysOf, List.map_cons]
      exact List.Sublist.cons₂ _ ih

theorem keysOf_alerase_nodup {α β : Type} [DecidableEq α] {l : List (α × β)} (k : α)
    (hnd : (keysOf l).Nodup) : (keysOf (alerase l k)).Nodup :=
  (keysOf_alerase_sublist l k).nodup hnd

theorem alget_alerase_self {α β : Type} [DecidableEq α] {l : List (α × β)} {k : α}
    (hnd : (keysOf l).Nodup) : alget (alerase l k) k = none := by
  induction l with
  | nil => simp [alerase, alget]
  | cons p rest ih =>
    have hnd2 := nodup_keys_cons hnd
    by_cases h' : k = p.1
    · subst h'
      simp only [alerase, if_pos rfl]
      exact alget_eq_none_iff.mpr hnd2.1
    · simp [alerase, alget, h']
      exact ih hnd2.2

theorem alset_eq_of_alget {α β : Type} [DecidableEq α] {l : List (α × β)} {k : α} {v : β}
    (h : alget l k = some v) : alset l k v = l := by
  induction l with
  | nil => simp [alget] at h
  | cons p rest ih =>
    by_cases h' : k = p.1
    · subst h'
      simp [alget] at h
      cases p
      simp at h ⊢
      simp [alset, h]
    · simp [alget, h'] at h
      simp [alset, h', ih h]

/-! ### Flat-file overlay (src/core/worker/gamefiles.py, `GameFilesClass`)

The `BRAWLHALLA_FILES`/`BRAWLHALLA_SWFS` tables map a recognized file name
to its on-disk path; both are built by walking the game directory, so their
keys are plain file names and the name-to-path map is injective.  The
embedding therefore indexes live game-file bytes directly by file name
(`live`), and keeps the table itself as the set of recognized names
(`gameFiles`).  `vault` is the cache folder holding the copied original
files; as in the source, its entries are keyed by `os.path.basename` of
the file name.  `hash` stands for `HashFromBytes` (MD5 in `utils/hash.py`),
kept abstract as a function parameter. -/

structure FilesCtx where
  hash : Bytes → String
  gameFiles : List String

/-- The persisted `GameFilesData` dictionaries plus the filesystem state the
class reads and writes. -/
structure GameFilesState where
  origFiles : List (String × String)
  modFiles : List (String × String)
  modifiedFilesMap : List (String × String)
  vault : String → Option Bytes
  live : String → Bytes

namespace GameFilesClass

/-- The cache-refresh decision of `installFile` (gamefiles.py lines 77-90):
snapshot when the file was never tracked, or when the live file no longer
matches the tracked original (no mod recorded), or when it matches neither
the tracked original nor the tracked mod file. -/
def shouldCopyOrig (ctx : FilesCtx) (st : GameFilesState) (fileName : String) : Bool :=
  let origFileHash := ctx.hash (st.live fileName)
  if alget st.origFiles fileName = none then true
  else if alget st.modFiles fileName = none ∧
          alget st.origFiles fileName ≠ some origFileHash then true
  else if (alget st.modFiles fileName).isSome ∧
          alget st.origFiles fileName ≠ some origFileHash ∧
          alget st.modFiles fileName ≠ some origFileHash then true
  else false

/-- `GameFilesClass.installFile` (gamefiles.py lines 48-124).  Notifications,
logging and `saveData` are elided; every state mutation is kept. -/
def installFile (ctx : FilesCtx) (st : GameFilesState) (fileName : String)
    (modFileContent : Bytes) (modHash : String) : GameFilesState :=
  if fileName ∈ ctx.gameFiles then
    let origFileContent := st.live fileName
    let origFileHash := ctx.hash origFileContent
    let modFileHash := ctx.hash modFileContent
    -- lines 77-90: decide whether to (re-)snapshot the original
    let copyOrigFile : Bool := shouldCopyOrig ctx st fileName
    let origFiles' :=
      if copyOrigFile then alset st.origFiles fileName origFileHash else st.origFiles
    -- lines 92-102: write the cache copy under the basename
    let vault' :=
      if copyOrigFile then
        fun bn => if bn = basename fileName then some origFileContent else st.vault bn
      else st.vault
    -- lines 104-110: skip the write when the hashes agree
    let live' :=
      if origFileHash ≠ modFileHash then setFun st.live fileName modFileContent
      else st.live
    { origFiles := origFiles'
      modFiles := alset st.modFiles fileName modFileHash
      modifiedFilesMap := alset st.modifiedFilesMap fileName modHash
      vault := vault'
      live := live' }
  else st

/-- `GameFilesClass.repairFile` (gamefiles.py lines 126-145).  Opening a
missing cache file raises, which the caller does not catch: embedded as
`none`. -/
def repairFile (ctx : FilesCtx) (st : GameFilesState) (fileName : String) :
    Option GameFilesState :=
  match alget st.origFiles fileName with
  | none => some st
  | some _ =>
    match st.vault (basename fileName) with
    | none => none
    | some origFileContent =>
      let live' :=
        if fileName ∈ ctx.gameFiles then setFun st.live fileName origFileContent
        else st.live
      some { st with live := live'
                     modFiles := alerase st.modFiles fileName
                     modifiedFilesMap := alerase st.modifiedFilesMap fileName }

/-- `GameFilesClass.uninstallMod` (gamefiles.py lines 147-154): repair every
file whose recorded owner is `modHash`, iterating over a snapshot of
`modifiedFilesMap`. -/
def uninstallMod (ctx : FilesCtx) (st : GameFilesState) (modHash : String) :
    Option GameFilesState :=
  st.modifiedFilesMap.foldlM
    (fun s p => if p.2 = modHash then repairFile ctx s p.1 else some s) st

/-- `GameFilesClass.getModConflict` (gamefiles.py lines 156-163).  The Python
set of owning hashes is embedded as a duplicate-free list; note that the
`modHash` parameter is never consulted, exactly as in the source. -/
def getModConflict (st : GameFilesState) (files : List String)
    (modHash : String) : List String :=
  files.foldl
    (fun acc file =>
      match alget st.modifiedFilesMap file with
      | some owner => if owner ∈ acc then acc else acc ++ [owner]
      | none => acc) []

end GameFilesClass

/-! ### Container-element overlay (src/core/worker/gameswf.py, `GameSwf`)

Elements of a game SWF are kept in an id-keyed store; the ffdec primitives
`removeElement`, `replaceElement` + `SetElementId` become erase/overwrite on
that store.  `symbolClass` is the id-to-name tag table; `getTagByName`
resolves a name to the first id carrying it.  Only the tag kinds the
uninstall path distinguishes (`DefineSoundTag`, `DefineSpriteTag`, anything
else) are distinguished here; a sprite carries the ids that
`GetNeededCharactersId` would report for it. -/

inductive SwfElement where
  | sound (data : Bytes)
  | sprite (data : Bytes) (needed : List Nat)
  | other (data : Bytes)
deriving DecidableEq

/-- The ids `GetNeededCharactersId` returns for an element (empty for
non-sprites, which the uninstall path never queries). -/
def neededOf : SwfElement → List Nat
  | .sprite _ ns => ns
  | _ => []

/-- `GameSwfData` fields plus the SWF contents the class mutates. -/
structure GameSwfState where
  anchors : List (String × Nat)
  scripts : List (String × String)
  installedMods : List String
  modifiedAnchorsMap : List (String × String)
  as3 : String → Option String
  symbolTags : List (Nat × String)
  elements : List (Nat × SwfElement)

namespace GameSwf

/-- `symbolClass.getTagByName`: the first tag id named `name`. -/
def getTagByName (tags : List (Nat × String)) (name : String) : Option Nat :=
  (tags.find? (fun p => p.2 = name)).map Prod.fst

/-- One iteration of the repair loop in `GameSwf.uninstallMod`
(gameswf.py lines 366-435), for an anchor owned by the mod being removed.
Missing originals or mod elements are skipped (`continue`), and anchors
whose element is neither a sound nor a sprite fall through with no
mutation, as in the source. -/
def uninstallAnchorStep (st : GameSwfState) (anchor : String) : GameSwfState :=
  if (alget st.scripts anchor).isSome then
    -- lines 368-374: restore the backed-up script text
    { st with
      as3 := fun a => if a = anchor then alget st.scripts anchor else st.as3 a
      scripts := alerase st.scripts anchor
      modifiedAnchorsMap := alerase st.modifiedAnchorsMap anchor }
  else
    match alget st.anchors anchor with
    | none => st
    | some origElId =>
      match alget st.elements origElId with
      | none => st
      | some origEl =>
        match getTagByName st.symbolTags anchor with
        | none => st
        | some modElId =>
          match alget st.elements modElId with
          | none => st
          | some modEl =>
            match modEl with
            | .sound _ =>
              -- lines 405-417: swap the clone back in under the mod id
              { st with
                elements := alset (alerase st.elements origElId) modElId origEl
                symbolTags := alset st.symbolTags modElId anchor
                anchors := alerase st.anchors anchor
                modifiedAnchorsMap := alerase st.modifiedAnchorsMap anchor }
            | .sprite _ ns =>
              -- lines 419-435: drop the mod sprite's dependencies first
              { st with
                elements :=
                  alset (alerase (ns.foldl (fun e i => alerase e i) st.elements)
                    origElId) modElId origEl
                symbolTags := alset st.symbolTags modElId anchor
                anchors := alerase st.anchors anchor
                modifiedAnchorsMap := alerase st.modifiedAnchorsMap anchor }
            | .other _ => st

/-- `GameSwf.uninstallMod` (gameswf.py lines 357-441): repair every anchor
recorded for `modHash` (iterating a snapshot of `modifiedAnchorsMap`), then
drop the mod from `installed`. -/
def uninstallMod (st : GameSwfState) (modHash : String) : GameSwfState :=
  let st₁ := st.modifiedAnchorsMap.foldl
    (fun s p => if p.2 = modHash then uninstallAnchorStep s p.1 else s) st
  { st₁ with installedMods := st₁.installedMods.erase modHash }

end GameSwf

/-- `ModClass.getModConflict` (mod.py lines 730-781): the flat-file
conflicts joined with, for every game SWF the mod touches, the owners
recorded in `modifiedAnchorsMap` for the mod's anchors.  Each SWF job is the
game file's state paired with the mod's anchors for it; notifications,
logging and the corrupted-SWF skip path are elided.  A falsy (empty) owner
string is not added, mirroring the walrus test in the source; as with the
flat overlay, the requesting mod's own hash is never filtered out. -/
def ModClass.getModConflict (filesSt : GameFilesState) (modFiles : List String)
    (modHash : String) (swfJobs : List (GameSwfState × List String)) : List String :=
  swfJobs.foldl
    (fun acc job =>
      job.2.foldl
        (fun acc anchor =>
          match alget job.1.modifiedAnchorsMap anchor with
          | some owner =>
            if owner ≠ "" then (if owner ∈ acc then acc else acc ++ [owner]) else acc
          | none => acc) acc)
    (GameFilesClass.getModConflict filesSt modFiles modHash)

/-! ### Language tables (src/core/worker/langbin.py)

A parsed `language.*.bin` table is its ordered list of key/value entries.
`LangFile` keeps, as in the source, both the list and the separately
maintained `entry_count` header field. -/

/-- An entry list, as held by `LangFile.entries` (each `Entry` is a
key/value pair of UTF-8 strings). -/
abbrev LangTable := List (String × String)

/-- `langbin.LangFile`: parsed entries plus the `entry_count` read from (or
written to) the 4-byte header. -/
structure LangFile where
  entries : LangTable
  entry_count : Nat

namespace LangFile

/-- The in-place update of `LangFile.__setitem__`: replace the value of the
first entry whose key matches, or report `none` if no entry matches. -/
def replaceFirst : LangTable → String → String → Option LangTable
  | [], _, _ => none
  | (k', v') :: rest, k, v =>
    if k' = k then some ((k', v) :: rest)
    else (replaceFirst rest k v).map (fun r => (k', v') :: r)

/-- `LangFile.__setitem__` (langbin.py lines 139-148): update an existing
entry in place, else append a fresh entry and bump `entry_count`. -/
def setItem (lf : LangFile) (k v : String) : LangFile :=
  match replaceFirst lf.entries k v with
  | some es => { lf with entries := es }
  | none => { entries := lf.entries ++ [(k, v)], entry_count := lf.entry_count + 1 }

/-- Big-endian 2-byte encoding (`UTF8String.WriteBytesIO` length field). -/
def uint16BE (n : Nat) : Bytes := [n / 256 % 256, n % 256]

/-- Big-endian 4-byte encoding (`LangFile.__WriteUint32BE`). -/
def uint32BE (n : Nat) : Bytes :=
  [n / 16777216 % 256, n / 65536 % 256, n / 256 % 256, n % 256]

/-- UTF-8 bytes of a string (`str.encode('utf-8')`). -/
def utf8Bytes (s : String) : Bytes := s.toUTF8.toList.map (fun b => b.toNat)

/-- `UTF8String.WriteBytesIO`: 2-byte big-endian byte length, then the
UTF-8 bytes. -/
def strEnc (s : String) : Bytes := uint16BE (utf8Bytes s).length ++ utf8Bytes s

/-- `Entry.WriteBytesIO`: key then value. -/
def entryEnc (e : String × String) : Bytes := strEnc e.1 ++ strEnc e.2

/-- The uncompressed payload `LangFile.Save` assembles before zlib
compression (langbin.py lines 89-93): the 4-byte big-endian `entry_count`
header followed by every serialized entry.  The zlib wrapper and the
little-endian inflated-size prefix written afterwards carry no entries and
are elided. -/
def savePayload (lf : LangFile) : Bytes :=
  uint32BE lf.entry_count ++ lf.entries.foldr (fun e acc => entryEnc e ++ acc) []

end LangFile

/-- Parameters of `LangBinHandler`: the names in `language_original_paths`
(the `language.*.bin` keys of `BRAWLHALLA_FILES`). -/
structure LangCtx where
  langFiles : List String

/-- `LangBinHandler` state: the cache-folder backups (`_backup_original_files`
copies, captured at construction), the live table files, and the
`mod_language_changes` tracking dict.  File contents are abstracted to their
parsed entry lists; `LangFile` parse/save round-trips through this
abstraction. -/
structure LangState where
  langVault : String → Option LangTable
  langLive : String → LangTable
  modLangChanges : List (String × List (String × LangTable))

namespace LangBinHandler

/-- `LangBinHandler._get_target_file` (langbin.py lines 184-207). -/
def getTargetFile (ctx : LangCtx) (originalFilename : String) : Option String :=
  if originalFilename = "" then none
  else
    let filenameOnly := basename originalFilename
    if filenameOnly ∈ ctx.langFiles then some filenameOnly
    else if strEndsWith filenameOnly ".txt" ∧
            (filenameOnly.replace ".txt" ".bin") ∈ ctx.langFiles then
      some (filenameOnly.replace ".txt" ".bin")
    else if filenameOnly = "language.bin" then
      (ssort ctx.langFiles).find?
        (fun p => strStartsWith p "language." && strEndsWith p ".bin")
    else none

/-- Apply `LangFile.__setitem__` for every key/value pair, in iteration
order, to an entry list (the loop in `_rebuild_language_files` lines
285-286, and `dict` iteration over a mod's changes). -/
def applyKVs (t : LangTable) (kvs : List (String × String)) : LangTable :=
  kvs.foldl
    (fun t kv =>
      match LangFile.replaceFirst t kv.1 kv.2 with
      | some es => es
      | none => t ++ [kv]) t

/-- `LangBinHandler.restore_all_original_files` (langbin.py lines 294-298):
copy every existing backup over the live file. -/
def restoreAllOriginalFiles (ctx : LangCtx) (st : LangState) : LangState :=
  ctx.langFiles.foldl
    (fun s f =>
      match s.langVault f with
      | some t => { s with langLive := setFun s.langLive f t }
      | none => s) st

/-- `LangBinHandler._rebuild_language_files` (langbin.py lines 264-292):
aggregate every tracked mod's changes in ascending mod-hash order (later
sorted mod wins on key collision, via `dict.update`), restore the originals,
then re-apply the aggregate on top of each restored table. -/
def rebuildLanguageFiles (ctx : LangCtx) (st : LangState) : LangState :=
  let sortedModHashes := ssort (keysOf st.modLangChanges)
  let aggregated : List (String × List (String × String)) :=
    sortedModHashes.foldl
      (fun agg h =>
        ((alget st.modLangChanges h).getD []).foldl
          (fun agg ft =>
            alset agg ft.1
              (ft.2.foldl (fun m kv => alset m kv.1 kv.2) ((alget agg ft.1).getD [])))
          agg) []
  let st₁ := restoreAllOriginalFiles ctx st
  aggregated.foldl
    (fun s ft =>
      if ft.1 ∈ ctx.langFiles then
        { s with langLive := setFun s.langLive ft.1 (applyKVs (s.langLive ft.1) ft.2) }
      else s) st₁

/-- `LangBinHandler.apply_mod_language_changes` (langbin.py lines 209-247).
The mod's parsed language payload is taken as its entry list; building
`mod_changes` from it deduplicates keys with later entries winning, as the
dict comprehension does.  `_save_mod_changes` (JSON persistence) is
elided. -/
def applyModLanguageChanges (ctx : LangCtx) (st : LangState)
    (modEntries : List (String × String)) (modHash : String)
    (originalFilename : String) : LangState × Bool :=
  match getTargetFile ctx originalFilename with
  | none => (st, false)
  | some targetFileName =>
    let modChanges := modEntries.foldl (fun m kv => alset m kv.1 kv.2) []
    let perMod := (alget st.modLangChanges modHash).getD []
    let mc := alset st.modLangChanges modHash (alset perMod targetFileName modChanges)
    let st₁ := { st with modLangChanges := mc }
    (rebuildLanguageFiles ctx st₁, true)

/-- `LangBinHandler.uninstall_mod_language_changes` (langbin.py lines
249-262): drop the mod's tracked changes if present, rebuild, report
success. -/
def uninstallModLanguageChanges (ctx : LangCtx) (st : LangState)
    (modHash : String) : LangState × Bool :=
  let st₁ := { st with modLangChanges := alerase st.modLangChanges modHash }
  (rebuildLanguageFiles ctx st₁, true)

end LangBinHandler

/-! ### Audio banks (src/core/worker/bnkhandler.py, `BnkHandler`)

The external wwiseutil tool is a parameter: `unpack` turns a bank file's
bytes into its id-keyed WEM entries (combining the `-unpack` run, the parsed
table from `extract_wem_info` and `verify_wem_files`; a non-zero exit code
or an empty table is `none`/`[]`), and `repack` rebuilds bank bytes from a
base bank plus a directory of entries (`-replace`; failure is `none`).
Live bank files and the `original_<name>` cache backups are byte-valued;
`installedMods` stands for the `ModRecord.installed` flags `ModLoader`
reports for the tracked hashes. -/

structure BnkTool where
  unpack : Bytes → Option (List (Nat × Bytes))
  repack : Bytes → List (Nat × Bytes) → Option Bytes

structure BnkCtx where
  tool : BnkTool
  bnkFiles : List String

/-- `BnkHandler` state (bnkhandler.py lines 20-25) plus the filesystem. -/
structure BnkState where
  originalBnks : List String
  bankVault : String → Option Bytes
  modChanges : List (String × List (String × List (Nat × Bytes)))
  originalWems : List (String × List (Nat × Bytes))
  liveBanks : String → Bytes
  installedMods : List String

namespace BnkHandler

/-- `BnkHandler.backup_original_file` (bnkhandler.py lines 88-102): refuse
names outside the game's `.bnk` table; otherwise copy the live file into the
cache once (never overwriting an existing backup file) and remember the
backup path.  `none` embeds the `False` return. -/
def backupOriginalFile (ctx : BnkCtx) (st : BnkState) (filename : String) :
    Option BnkState :=
  if filename ∈ ctx.bnkFiles ∧ strEndsWith filename ".bnk" then
    if filename ∈ st.originalBnks then some st
    else
      let vault' :=
        if (st.bankVault filename).isSome then st.bankVault
        else fun f => if f = filename then some (st.liveBanks filename) else st.bankVault f
      some { st with bankVault := vault', originalBnks := filename :: st.originalBnks }
  else none

/-- `BnkHandler.get_active_mods_for_file` (bnkhandler.py lines 210-236),
run after the stale-entry cleanup at the top of `apply_mod_changes` has
already dropped every non-installed mod, so its own cleanup arm is a no-op
and it reduces to filtering the tracked changes for installed mods touching
`targetFile`. -/
def activeModsForFile (st : BnkState) (targetFile : String) :
    List (String × List (Nat × Bytes)) :=
  st.modChanges.filterMap
    (fun p =>
      if p.1 ∈ st.installedMods then (alget p.2 targetFile).map (fun m => (p.1, m))
      else none)

/-- Lines 591-593 of `apply_mod_changes` (and 1253-1255 of
`apply_wem_file`): restore the live bank from the cached original, when one
was recorded. -/
def restoreLiveFromBackup (st : BnkState) (targetFile : String) : BnkState :=
  if targetFile ∈ st.originalBnks then
    { st with liveBanks :=
        setFun st.liveBanks targetFile ((st.bankVault targetFile).getD (st.liveBanks targetFile)) }
  else st

/-- `BnkHandler.apply_mod_changes` (bnkhandler.py lines 266-611): the full
install pipeline — stale-mod cleanup, pristine backup, unpack of the mod
bank and of the pristine backup, WEM backup, re-application of every other
active mod, protected-id skipping, identical-content skipping, change
tracking, repack, count verification, and install-or-restore.  Logging and
notifications are elided; the returned `Bool` is the method's return
value. -/
def applyModChanges (ctx : BnkCtx) (st : BnkState) (modBnk : Bytes)
    (modHash : String) (targetFile : String) : BnkState × Bool :=
  -- lines 276-287: drop tracked changes of mods that are no longer installed
  let st0 := { st with modChanges := st.modChanges.filter (fun p => p.1 ∈ st.installedMods) }
  -- line 293 indexes BRAWLHALLA_FILES[target]; a missing key raises into the
  -- outer handler which returns False
  if targetFile ∈ ctx.bnkFiles then
    match backupOriginalFile ctx st0 targetFile with
    | none => (st0, false)
    | some st₁ =>
      match ctx.tool.unpack modBnk with
      | none => (st₁, false)
      | some modEntries =>
        if modEntries = [] then (st₁, false)
        else
          let activeMods := activeModsForFile st₁ targetFile
          -- lines 384-390: extract from the pristine backup, falling back to
          -- the live file when no backup is recorded
          let base := (st₁.bankVault targetFile).getD (st₁.liveBanks targetFile)
          match ctx.tool.unpack base with
          | none => (st₁, false)
          | some gameEntries =>
            if gameEntries = [] then (st₁, false)
            else
              -- lines 424-429: back up pristine WEM data, first write wins
              let ow₀ := (alget st₁.originalWems targetFile).getD []
              let ow₁ := gameEntries.foldl
                (fun m idb => if (alget m idb.1).isSome then m else alset m idb.1 idb.2) ow₀
              let st₂ := { st₁ with originalWems := alset st₁.originalWems targetFile ow₁ }
              -- lines 432-436: ids owned by other active mods
              let protectedIds := (activeMods.filter (fun p => p.1 ≠ modHash)).foldl
                (fun acc p => acc ++ keysOf p.2) []
              -- lines 441-452: re-apply every other active mod onto the
              -- extracted pristine entries
              let dir₁ := (activeMods.filter (fun p => p.1 ≠ modHash)).foldl
                (fun d p => p.2.foldl
                  (fun d idb =>
                    if (alget gameEntries idb.1).isSome then alset d idb.1 idb.2 else d) d)
                gameEntries
              -- lines 460-507: copy the mod's WEMs over, skipping protected
              -- ids and byte-identical files, recording each replacement
              let step := fun (acc : List (Nat × Bytes) × List (String × List (String × List (Nat × Bytes)))) (idb : Nat × Bytes) =>
                if (alget gameEntries idb.1).isSome then
                  if idb.1 ∈ protectedIds then acc
                  else
                    match alget acc.1 idb.1 with
                    | none => acc
                    | some cur =>
                      if idb.2 = cur then acc
                      else
                        let perMod := (alget acc.2 modHash).getD []
                        let perFile := (alget perMod targetFile).getD []
                        (alset acc.1 idb.1 idb.2,
                         alset acc.2 modHash
                           (alset perMod targetFile (alset perFile idb.1 idb.2)))
                else acc
              let dirMc := modEntries.foldl step (dir₁, st₂.modChanges)
              let st₃ := { st₂ with modChanges := dirMc.2 }
              -- lines 528-545: repack from the pristine base
              match ctx.tool.repack base dirMc.1 with
              | none => (st₃, false)
              | some tempOutput =>
                -- lines 548-595: unpack the temporary output and compare the
                -- entry count against the pristine count
                match ctx.tool.unpack tempOutput with
                | none => (restoreLiveFromBackup st₃ targetFile, false)
                | some rebuiltEntries =>
                  if rebuiltEntries.length = gameEntries.length then
                    ({ st₃ with liveBanks := setFun st₃.liveBanks targetFile tempOutput },
                     true)
                  else (restoreLiveFromBackup st₃ targetFile, false)
  else (st0, false)

/-- The rebuilt-content verification of `uninstall_mod_changes`
(bnkhandler.py lines 843-903): every removed WEM present in the rebuild
must match its remaining owner's bytes or, with no remaining owner, the
backed-up original (ids with no backup only warn); every remaining mod's
WEM present in the rebuild must match that mod's bytes. -/
def verifyUninstall (st : BnkState) (targetFile : String)
    (remainingMods : List (String × List (Nat × Bytes)))
    (removedWems : List (Nat × Bytes)) (rebuiltEntries : List (Nat × Bytes)) : Bool :=
  (removedWems.all fun idb =>
    match alget rebuiltEntries idb.1 with
    | none => true
    | some actual =>
      match remainingMods.findSome? (fun p => alget p.2 idb.1) with
      | some expected => actual = expected
      | none =>
        match (alget st.originalWems targetFile).bind (fun m => alget m idb.1) with
        | some expected => actual = expected
        | none => true) &&
  (remainingMods.all fun p => p.2.all fun idb =>
    match alget rebuiltEntries idb.1 with
    | none => true
    | some actual => actual = idb.2)

/-- One iteration of the per-file loop of `uninstall_mod_changes`
(bnkhandler.py lines 650-956), threading the `files_failed` counter.
Early `continue`s (extraction failures, missing WEM table) do not count as
failures, exactly as in the source. -/
def uninstallOneBank (ctx : BnkCtx) (st : BnkState) (failed : Nat)
    (removedByFile : List (String × List (Nat × Bytes))) (targetFile : String) :
    BnkState × Nat :=
  let remainingMods := st.modChanges.filterMap
    (fun p => (alget p.2 targetFile).map (fun m => (p.1, m)))
  let removedWems := (alget removedByFile targetFile).getD []
  -- lines 672-684: locate (or create) the pristine backup
  let ensured :=
    if targetFile ∈ st.originalBnks then some st
    else backupOriginalFile ctx st targetFile
  match ensured with
  | none => (st, failed)
  | some stB =>
    let base := (stB.bankVault targetFile).getD (stB.liveBanks targetFile)
    match ctx.tool.unpack base with
    | none => (stB, failed)
    | some origEntries =>
      if origEntries = [] then (stB, failed)
      else
        -- lines 738-751: apply the remaining mods over the pristine entries
        let dir := remainingMods.foldl
          (fun d p => p.2.foldl
            (fun d idb =>
              if (alget origEntries idb.1).isSome then alset d idb.1 idb.2 else d) d)
          origEntries
        let appliedCount := remainingMods.foldl
          (fun n p => p.2.foldl
            (fun n idb => if (alget origEntries idb.1).isSome then n + 1 else n) n) 0
        -- line 774: rebuild only when some remaining mod exists or some WEM
        -- was applied; otherwise the live bank is left untouched
        if remainingMods.length > 0 ∨ appliedCount > 0 then
          match ctx.tool.repack base dir with
          | none => (stB, failed + 1)
          | some tempOutput =>
            match ctx.tool.unpack tempOutput with
            | none => (stB, failed + 1)
            | some rebuiltEntries =>
              if verifyUninstall stB targetFile remainingMods removedWems rebuiltEntries ∧
                 rebuiltEntries.length = origEntries.length then
                ({ stB with liveBanks := setFun stB.liveBanks targetFile tempOutput },
                 failed)
              else (stB, failed + 1)
        else (stB, failed)

/-- `BnkHandler.uninstall_mod_changes` (bnkhandler.py lines 613-981):
success immediately when the mod has no tracked changes; otherwise remove
the mod from tracking first, rebuild every affected bank from its pristine
backup with the remaining mods, and succeed iff no file failed. -/
def uninstallModChanges (ctx : BnkCtx) (st : BnkState) (modHash : String) :
    BnkState × Bool :=
  match alget st.modChanges modHash with
  | none => (st, true)
  | some removedByFile =>
    let affectedFiles := keysOf removedByFile
    let st₁ := { st with modChanges := alerase st.modChanges modHash }
    let result := affectedFiles.foldl
      (fun acc t => uninstallOneBank ctx acc.1 acc.2 removedByFile t) (st₁, 0)
    (result.1, result.2 = 0)

end BnkHandler

/-! ### The combined engine

Install and uninstall requests (forced or not — the `force` flag only skips
conflict detection in `ModClass.install` and changes none of the overlay
writes) reach the overlays through the operations below.  This is the
operation alphabet over which durability (claim C2) is stated. -/

structure SysCtx where
  files : FilesCtx
  bnk : BnkCtx
  lang : LangCtx

structure SysState where
  files : GameFilesState
  banks : BnkState
  langs : LangState

/-- The overlay operations a mod install / uninstall / force-install issues:
flat-file install (`GameFiles.installFile`), flat-file uninstall
(`GameFiles.uninstallMod`), bank install (`bnk_handler.apply_mod_changes`),
bank uninstall (`bnk_handler.uninstall_mod_changes`), language install
(`lang_bin_handler.apply_mod_language_changes`) and language uninstall
(`lang_bin_handler.uninstall_mod_language_changes`). -/
inductive SysOp where
  | installFileOp (fileName : String) (content : Bytes) (modHash : String)
  | uninstallFilesOp (modHash : String)
  | applyBnkOp (modBnk : Bytes) (modHash targetFile : String)
  | uninstallBnkOp (modHash : String)
  | applyLangOp (entries : List (String × String)) (modHash originalFilename : String)
  | uninstallLangOp (modHash : String)

def runSysOp (ctx : SysCtx) (st : SysState) : SysOp → Option SysState
  | .installFileOp f c h =>
    some { st with files := GameFilesClass.installFile ctx.files st.files f c h }
  | .uninstallFilesOp h =>
    (GameFilesClass.uninstallMod ctx.files st.files h).map (fun fs => { st with files := fs })
  | .applyBnkOp mb h t =>
    some { st with banks := (BnkHandler.applyModChanges ctx.bnk st.banks mb h t).1 }
  | .uninstallBnkOp h =>
    some { st with banks := (BnkHandler.uninstallModChanges ctx.bnk st.banks h).1 }
  | .applyLangOp es h o =>
    some { st with langs := (LangBinHandler.applyModLanguageChanges ctx.lang st.langs es h o).1 }
  | .uninstallLangOp h =>
    some { st with langs := (LangBinHandler.uninstallModLanguageChanges ctx.lang st.langs h).1 }

def runSysOps (ctx : SysCtx) (st : SysState) (ops : List SysOp) : Option SysState :=
  ops.foldlM (runSysOp ctx) st

/-- The file-name table built by walking the game directory has plain file
names as keys, so distinct recognized names have distinct basenames. -/
def BasenameInjective (ctx : FilesCtx) : Prop :=
  ∀ f1 f2, f1 ∈ ctx.gameFiles → f2 ∈ ctx.gameFiles → basename f1 = basename f2 → f1 = f2

/-- The consistency invariant `GameFilesClass` maintains between its
dictionaries, the cache folder and the live files:
tracked names are recognized names; every tracked original hash belongs to
a cache copy under the name's basename; live bytes agree with the recorded
mod hash (or with the cache copy when no mod is recorded); and every cache
copy is accounted for by some tracked name. -/
def FilesInv (ctx : FilesCtx) (st : GameFilesState) : Prop :=
  (keysOf st.origFiles).Nodup ∧
  (keysOf st.modFiles).Nodup ∧
  (keysOf st.modifiedFilesMap).Nodup ∧
  (∀ f h, alget st.origFiles f = some h → f ∈ ctx.gameFiles) ∧
  (∀ f h, alget st.origFiles f = some h →
    ∃ b, st.vault (basename f) = some b ∧ ctx.hash b = h) ∧
  (∀ f h, alget st.origFiles f = some h →
    (∀ mh, alget st.modFiles f = some mh → ctx.hash (st.live f) = mh) ∧
    (alget st.modFiles f = none → st.vault (basename f) = some (st.live f))) ∧
  (∀ bn b, st.vault bn = some b →
    ∃ f, alget st.origFiles f = some (ctx.hash b) ∧ basename f = bn)

namespace GameFilesClass

theorem installFile_eq_of_not_game {ctx : FilesCtx} {st : GameFilesState} {f : String}
    {c : Bytes} {h : String} (hng : f ∉ ctx.gameFiles) :
    installFile ctx st f c h = st := by
  simp [installFile, hng]

theorem installFile_eq_of_copy_true {ctx : FilesCtx} {st : GameFilesState} {f : String}
    {c : Bytes} {h : String} (hg : f ∈ ctx.gameFiles)
    (hc : shouldCopyOrig ctx st f = true) :
    installFile ctx st f c h =
      { origFiles := alset st.origFiles f (ctx.hash (st.live f))
        modFiles := alset st.modFiles f (ctx.hash c)
        modifiedFilesMap := alset st.modifiedFilesMap f h
        vault := fun bn => if bn = basename f then some (st.live f) else st.vault bn
        live := if ctx.hash (st.live f) ≠ ctx.hash c then setFun st.live f c
                else st.live } := by
  simp [installFile, hg, hc]

theorem installFile_eq_of_copy_false {ctx : FilesCtx} {st : GameFilesState} {f : String}
    {c : Bytes} {h : String} (hg : f ∈ ctx.gameFiles)
    (hc : shouldCopyOrig ctx st f = false) :
    installFile ctx st f c h =
      { origFiles := st.origFiles
        modFiles := alset st.modFiles f (ctx.hash c)
        modifiedFilesMap := alset st.modifiedFilesMap f h
        vault := st.vault
        live := if ctx.hash (st.live f) ≠ ctx.hash c then setFun st.live f c
                else st.live } := by
  simp [installFile, hg, hc]

/-- Under the invariant, a file with no tracked original also has no cache
copy under its basename (so the first snapshot never clobbers another
file's copy). -/
theorem vault_none_of_untracked {ctx : FilesCtx} {st : GameFilesState}
    (hinv : FilesInv ctx st) (hinj : BasenameInjective ctx) {f : String}
    (hg : f ∈ ctx.gameFiles) (ho : alget st.origFiles f = none) :
    st.vault (basename f) = none := by
  obtain ⟨-, -, -, h4, -, -, h7⟩ := hinv
  cases hv : st.vault (basename f) with
  | none => rfl
  | some b =>
    obtain ⟨g, hg', hbg⟩ := h7 _ _ hv
    have : g = f := hinj g f (h4 g _ hg') hg hbg
    rw [this] at hg'
    rw [ho] at hg'
    exact absurd hg' (by simp)

/-- Under the invariant, a tracked file never triggers a re-snapshot: the
live bytes always match either the recorded original hash or the recorded
mod hash. -/
theorem shouldCopyOrig_of_tracked {ctx : FilesCtx} {st : GameFilesState}
    (hinv : FilesInv ctx st) {f h0 : String}
    (ho : alget st.origFiles f = some h0) :
    shouldCopyOrig ctx st f = false := by
  obtain ⟨-, -, -, -, h5, h6, -⟩ := hinv
  have h6f := h6 f h0 ho
  simp only [shouldCopyOrig]
  rw [if_neg (by simp [ho])]
  rw [if_neg ?hb2, if_neg ?hb3]
  case hb2 =>
    rintro ⟨hm, hne⟩
    have hvb := h6f.2 hm
    obtain ⟨b, hv, hhb⟩ := h5 f h0 ho
    rw [hvb] at hv
    have : b = st.live f := by injection hv with hv2; exact hv2.symm
    rw [this] at hhb
    rw [ho] at hne
    exact hne (by rw [hhb])
  case hb3 =>
    rintro ⟨hs, -, hne3⟩
    cases hm : alget st.modFiles f with
    | none => rw [hm] at hs; simp at hs
    | some mh =>
      have := h6f.1 mh hm
      rw [hm] at hne3
      exact hne3 (by rw [this])

/-- The invariant is preserved by `installFile`, and an existing cache copy
is never overwritten by it. -/
theorem installFile_inv {ctx : FilesCtx} {st : GameFilesState}
    (hinv : FilesInv ctx st) (hinj : BasenameInjective ctx)
    (f : String) (c : Bytes) (h : String) :
    FilesInv ctx (installFile ctx st f c h) ∧
    (∀ bn b, st.vault bn = some b → (installFile ctx st f c h).vault bn = some b) := by
  by_cases hg : f ∈ ctx.gameFiles
  · cases ho : alget st.origFiles f with
    | none =>
      have hfresh := vault_none_of_untracked hinv hinj hg ho
      rw [installFile_eq_of_copy_true hg (by simp [shouldCopyOrig, ho])]
      simp only [FilesInv]
      obtain ⟨hnd1, hnd2, hnd3, h4, h5, h6, h7⟩ := hinv
      have hlive : ∀ g, g ≠ f →
          (if ctx.hash (st.live f) ≠ ctx.hash c then setFun st.live f c
           else st.live) g = st.live g := by
        intro g hgf
        split
        · simp [setFun, hgf]
        · rfl
      have hlivef : ctx.hash ((if ctx.hash (st.live f) ≠ ctx.hash c then setFun st.live f c
           else st.live) f) = ctx.hash c := by
        split
        · simp [setFun]
        · next hne => push_neg at hne; simpa using hne
      have hvaultg : ∀ g h', g ≠ f → alget st.origFiles g = some h' →
          basename g ≠ basename f := by
        intro g h' hgf hog hbe
        have hvg := h5 g h' hog
        obtain ⟨b, hvb, -⟩ := hvg
        rw [hbe, hfresh] at hvb
        exact absurd hvb (by simp)
      refine ⟨⟨?_, ?_, ?_, ?_, ?_, ?_, ?_⟩, ?_⟩
      · exact keysOf_alset_nodup _ _ hnd1
      · exact keysOf_alset_nodup _ _ hnd2
      · exact keysOf_alset_nodup _ _ hnd3
      · intro g h' hog
        by_cases hgf : g = f
        · exact hgf ▸ hg
        · exact h4 g h' (by rwa [alget_alset_ne hgf] at hog)
      · intro g h' hog
        by_cases hgf : g = f
        · subst hgf
          rw [alget_alset_self] at hog
          exact ⟨st.live g, by simp, Option.some.inj hog⟩
        · rw [alget_alset_ne hgf] at hog
          obtain ⟨b, hvb, hhb⟩ := h5 g h' hog
          refine ⟨b, ?_, hhb⟩
          simp only [if_neg (hvaultg g h' hgf hog)]
          exact hvb
      · intro g h' hog
        by_cases hgf : g = f
        · subst hgf
          constructor
          · intro mh hmh
            rw [alget_alset_self] at hmh
            injection hmh with hmh
            rw [← hmh]
            exact hlivef
          · intro hmn
            rw [alget_alset_self] at hmn
            exact absurd hmn (by simp)
        · rw [alget_alset_ne hgf] at hog
          have h6g := h6 g h' hog
          constructor
          · intro mh hmh
            rw [alget_alset_ne hgf] at hmh
            rw [hlive g hgf]
            exact h6g.1 mh hmh
          · intro hmn
            rw [alget_alset_ne hgf] at hmn
            rw [hlive g hgf]
            simp only [if_neg (hvaultg g h' hgf hog)]
            exact h6g.2 hmn
      · intro bn b hvb
        by_cases hbn : bn = basename f
        · subst hbn
          simp at hvb
          refine ⟨f, ?_, rfl⟩
          rw [alget_alset_self, hvb]
        · simp only [if_neg hbn] at hvb
          obtain ⟨g, hog, hbg⟩ := h7 bn b hvb
          refine ⟨g, ?_, hbg⟩
          have hgf : g ≠ f := by
            intro hgf
            rw [hgf, ho] at hog
            exact absurd hog (by simp)
          rwa [alget_alset_ne hgf]
      · intro bn b hvb
        have hbn : bn ≠ basename f := by
          intro hbn
          rw [hbn, hfresh] at hvb
          exact absurd hvb (by simp)
        simp only [if_neg hbn]
        exact hvb
    | some h0 =>
      rw [installFile_eq_of_copy_false hg (shouldCopyOrig_of_tracked hinv ho)]
      simp only [FilesInv]
      obtain ⟨hnd1, hnd2, hnd3, h4, h5, h6, h7⟩ := hinv
      have hlive : ∀ g, g ≠ f →
          (if ctx.hash (st.live f) ≠ ctx.hash c then setFun st.live f c
           else st.live) g = st.live g := by
        intro g hgf
        split
        · simp [setFun, hgf]
        · rfl
      have hlivef : ctx.hash ((if ctx.hash (st.live f) ≠ ctx.hash c then setFun st.live f c
           else st.live) f) = ctx.hash c := by
        split
        · simp [setFun]
        · next hne => push_neg at hne; simpa using hne
      refine ⟨⟨hnd1, keysOf_alset_nodup _ _ hnd2, keysOf_alset_nodup _ _ hnd3,
        h4, h5, ?_, h7⟩, fun bn b hvb => hvb⟩
      intro g h' hog
      by_cases hgf : g = f
      · subst hgf
        constructor
        · intro mh hmh
          rw [alget_alset_self] at hmh
          injection hmh with hmh
          rw [← hmh]
          exact hlivef
        · intro hmn
          rw [alget_alset_self] at hmn
          exact absurd hmn (by simp)
      · have h6g := h6 g h' hog
        constructor
        · intro mh hmh
          rw [alget_alset_ne hgf] at hmh
          rw [hlive g hgf]
          exact h6g.1 mh hmh
        · intro hmn
          rw [alget_alset_ne hgf] at hmn
          rw [hlive g hgf]
          exact h6g.2 hmn
  · rw [installFile_eq_of_not_game hg]
    exact ⟨hinv, fun bn b hvb => hvb⟩

/-- `repairFile` never touches the cache folder or the original-hash
dictionary. -/
theorem repairFile_frame {ctx : FilesCtx} {st st' : GameFilesState} {f : String}
    (h : repairFile ctx st f = some st') :
    st'.vault = st.vault ∧ st'.origFiles = st.origFiles := by
  unfold repairFile at h
  cases ho : alget st.origFiles f with
  | none =>
    rw [ho] at h
    cases h
    exact ⟨rfl, rfl⟩
  | some h0 =>
    rw [ho] at h
    cases hv : st.vault (basename f) with
    | none => rw [hv] at h; cases h
    | some b =>
      rw [hv] at h
      cases h
      exact ⟨rfl, rfl⟩

/-- The invariant is preserved by `repairFile`. -/
theorem repairFile_inv {ctx : FilesCtx} {st st' : GameFilesState} {f : String}
    (hinv : FilesInv ctx st) (h : repairFile ctx st f = some st') :
    FilesInv ctx st' := by
  unfold repairFile at h
  cases ho : alget st.origFiles f with
  | none =>
    rw [ho] at h
    cases h
    exact hinv
  | some h0 =>
    rw [ho] at h
    cases hv : st.vault (basename f) with
    | none => rw [hv] at h; cases h
    | some b =>
      rw [hv] at h
      obtain ⟨hnd1, hnd2, hnd3, h4, h5, h6, h7⟩ := hinv
      have hfg : f ∈ ctx.gameFiles := h4 f h0 ho
      cases h
      simp only [FilesInv]
      rw [if_pos hfg]
      refine ⟨hnd1, keysOf_alerase_nodup _ hnd2, keysOf_alerase_nodup _ hnd3,
        h4, h5, ?_, h7⟩
      intro g h' hog
      by_cases hgf : g = f
      · subst hgf
        constructor
        · intro mh hmh
          rw [alget_alerase_self hnd2] at hmh
          exact absurd hmh (by simp)
        · intro _
          simpa [setFun] using hv
      · have h6g := h6 g h' hog
        constructor
        · intro mh hmh
          rw [alget_alerase_ne hgf] at hmh
          simpa [setFun, hgf] using h6g.1 mh hmh
        · intro hmn
          rw [alget_alerase_ne hgf] at hmn
          simpa [setFun, hgf] using h6g.2 hmn

/-- `repairFile` only rewrites the repaired file: any other file's live
bytes and ownership entry are untouched. -/
theorem repairFile_other {ctx : FilesCtx} {st st' : GameFilesState} {f g : String}
    (hgf : g ≠ f) (h : repairFile ctx st f = some st') :
    st'.live g = st.live g ∧
    alget st'.modifiedFilesMap g = alget st.modifiedFilesMap g ∧
    alget st'.modFiles g = alget st.modFiles g := by
  unfold repairFile at h
  cases ho : alget st.origFiles f with
  | none =>
    rw [ho] at h
    cases h
    exact ⟨rfl, rfl, rfl⟩
  | some h0 =>
    rw [ho] at h
    cases hv : st.vault (basename f) with
    | none => rw [hv] at h; cases h
    | some b =>
      rw [hv] at h
      cases h
      refine ⟨?_, alget_alerase_ne hgf, alget_alerase_ne hgf⟩
      dsimp only
      split
      · simp [setFun, hgf]
      · rfl

/-- The repair loop of `uninstallMod`, over an arbitrary snapshot list:
preserves the invariant and leaves the cache folder untouched. -/
theorem foldRepair_inv {ctx : FilesCtx} (modHash : String) :
    ∀ (snap : List (String × String)) (st st' : GameFilesState),
    FilesInv ctx st →
    snap.foldlM (fun s p => if p.2 = modHash then repairFile ctx s p.1 else some s) st
      = some st' →
    FilesInv ctx st' ∧ st'.vault = st.vault := by
  intro snap
  induction snap with
  | nil =>
    intro st st' hinv h
    cases h
    exact ⟨hinv, rfl⟩
  | cons p rest ih =>
    intro st st' hinv h
    rw [List.foldlM_cons] at h
    by_cases hp : p.2 = modHash
    · rw [if_pos hp] at h
      cases hr : repairFile ctx st p.1 with
      | none => rw [hr] at h; cases h
      | some s₁ =>
        rw [hr] at h
        obtain ⟨hinv₁, hveq⟩ := ih s₁ st' (repairFile_inv hinv hr) h
        exact ⟨hinv₁, hveq.trans (repairFile_frame hr).1⟩
    · rw [if_neg hp] at h
      exact ih st st' hinv h

/-- The invariant is preserved by `uninstallMod`, which never writes the
cache folder. -/
theorem uninstallMod_inv {ctx : FilesCtx} {st st' : GameFilesState} {modHash : String}
    (hinv : FilesInv ctx st) (h : uninstallMod ctx st modHash = some st') :
    FilesInv ctx st' ∧ st'.vault = st.vault :=
  foldRepair_inv modHash st.modifiedFilesMap st st' hinv h

end GameFilesClass

namespace BnkHandler

/-- `backup_original_file` writes the cache only when no backup file exists:
an existing backup is never overwritten. -/
theorem backupOriginalFile_bankVault_stable {ctx : BnkCtx} {st st' : BnkState}
    {f : String} (h : backupOriginalFile ctx st f = some st')
    {t : String} {b : Bytes} (hb : st.bankVault t = some b) :
    st'.bankVault t = some b := by
  unfold backupOriginalFile at h
  split at h
  · split at h
    · cases h
      exact hb
    · cases h
      dsimp only
      split
      · exact hb
      · next hns =>
        dsimp only
        by_cases htf : t = f
        · subst htf
          rw [hb] at hns
          simp at hns
        · simp only [if_neg htf]
          exact hb
  · cases h

theorem restoreLiveFromBackup_bankVault (st : BnkState) (target : String) :
    (restoreLiveFromBackup st target).bankVault = st.bankVault := by
  unfold restoreLiveFromBackup
  split <;> rfl

theorem restoreLiveFromBackup_bankVault_stable {st : BnkState} {target : String}
    {t : String} {b : Bytes} (hb : st.bankVault t = some b) :
    (restoreLiveFromBackup st target).bankVault t = some b := by
  rw [restoreLiveFromBackup_bankVault]
  exact hb

/-- An install through `apply_mod_changes` never overwrites an existing
pristine bank backup. -/
theorem applyModChanges_bankVault_stable (ctx : BnkCtx) (st : BnkState)
    (modBnk : Bytes) (modHash targetFile : String) {t : String} {b : Bytes}
    (hb : st.bankVault t = some b) :
    ((applyModChanges ctx st modBnk modHash targetFile).1).bankVault t = some b := by
  unfold applyModChanges
  dsimp only
  split
  · split
    · exact hb
    · next st₁ heq =>
      have hb1 : st₁.bankVault t = some b :=
        backupOriginalFile_bankVault_stable heq hb
      repeat' split
      all_goals first
        | exact hb1
        | exact restoreLiveFromBackup_bankVault_stable hb1
  · exact hb

/-- A single per-file uninstall rebuild never overwrites an existing
pristine bank backup. -/
theorem uninstallOneBank_bankVault_stable (ctx : BnkCtx) (st : BnkState)
    (failed : Nat) (removedByFile : List (String × List (Nat × Bytes)))
    (targetFile : String) {t : String} {b : Bytes}
    (hb : st.bankVault t = some b) :
    ((uninstallOneBank ctx st failed removedByFile targetFile).1).bankVault t = some b := by
  unfold uninstallOneBank
  dsimp only
  split
  · exact hb
  · next stB heq =>
    have hbB : stB.bankVault t = some b := by
      split at heq
      · cases heq
        exact hb
      · exact backupOriginalFile_bankVault_stable heq hb
    repeat' split
    all_goals exact hbB

/-- `uninstall_mod_changes` never overwrites an existing pristine bank
backup. -/
theorem uninstallModChanges_bankVault_stable (ctx : BnkCtx) (st : BnkState)
    (modHash : String) {t : String} {b : Bytes}
    (hb : st.bankVault t = some b) :
    ((uninstallModChanges ctx st modHash).1).bankVault t = some b := by
  unfold uninstallModChanges
  split
  · exact hb
  · next removedByFile heq =>
    dsimp only
    suffices h : ∀ (files : List String) (s : BnkState) (n : Nat),
        s.bankVault t = some b →
        ((files.foldl (fun acc u => uninstallOneBank ctx acc.1 acc.2 removedByFile u)
          (s, n)).1).bankVault t = some b by
      exact h _ _ 0 hb
    intro files
    induction files with
    | nil => intro s n hs; exact hs
    | cons u rest ih =>
      intro s n hs
      rw [List.foldl_cons]
      have := uninstallOneBank_bankVault_stable ctx s n removedByFile u hs
      exact ih _ _ this

end BnkHandler

namespace LangBinHandler

/-- Restoring originals only rewrites live tables. -/
theorem restoreAllOriginalFiles_frame (ctx : LangCtx) (st : LangState) :
    (restoreAllOriginalFiles ctx st).langVault = st.langVault ∧
    (restoreAllOriginalFiles ctx st).modLangChanges = st.modLangChanges := by
  unfold restoreAllOriginalFiles
  suffices h : ∀ (files : List String) (s : LangState),
      ((files.foldl (fun s f =>
        match s.langVault f with
        | some t => { s with langLive := setFun s.langLive f t }
        | none => s) s).langVault = s.langVault ∧
       (files.foldl (fun s f =>
        match s.langVault f with
        | some t => { s with langLive := setFun s.langLive f t }
        | none => s) s).modLangChanges = s.modLangChanges) by
    exact h ctx.langFiles st
  intro files
  induction files with
  | nil => intro s; exact ⟨rfl, rfl⟩
  | cons f rest ih =>
    intro s
    rw [List.foldl_cons]
    cases hv : s.langVault f with
    | none =>
      simp only [hv]
      exact ih s
    | some tb =>
      simp only [hv]
      exact ih _

/-- A table rebuild reads the backups and the tracking dict but rewrites
only live tables. -/
theorem rebuildLanguageFiles_frame (ctx : LangCtx) (st : LangState) :
    (rebuildLanguageFiles ctx st).langVault = st.langVault ∧
    (rebuildLanguageFiles ctx st).modLangChanges = st.modLangChanges := by
  unfold rebuildLanguageFiles
  dsimp only
  have hres := restoreAllOriginalFiles_frame ctx st
  suffices h : ∀ (agg : List (String × List (String × String))) (s : LangState),
      ((agg.foldl (fun s ft =>
        if ft.1 ∈ ctx.langFiles then
          { s with langLive := setFun s.langLive ft.1 (applyKVs (s.langLive ft.1) ft.2) }
        else s) s).langVault = s.langVault ∧
       (agg.foldl (fun s ft =>
        if ft.1 ∈ ctx.langFiles then
          { s with langLive := setFun s.langLive ft.1 (applyKVs (s.langLive ft.1) ft.2) }
        else s) s).modLangChanges = s.modLangChanges) by
    constructor
    · rw [(h _ _).1]
      exact hres.1
    · rw [(h _ _).2]
      exact hres.2
  intro agg
  induction agg with
  | nil => intro s; exact ⟨rfl, rfl⟩
  | cons ft rest ih =>
    intro s
    rw [List.foldl_cons]
    by_cases hf : ft.1 ∈ ctx.langFiles
    · simp only [if_pos hf]
      exact ih _
    · simp only [if_neg hf]
      exact ih s

/-- Installing language changes never rewrites a backup. -/
theorem applyModLanguageChanges_langVault (ctx : LangCtx) (st : LangState)
    (modEntries : List (String × String)) (modHash originalFilename : String) :
    ((applyModLanguageChanges ctx st modEntries modHash originalFilename).1).langVault
      = st.langVault := by
  unfold applyModLanguageChanges
  split
  · rfl
  · exact (rebuildLanguageFiles_frame ctx _).1

/-- Uninstalling language changes never rewrites a backup. -/
theorem uninstallModLanguageChanges_langVault (ctx : LangCtx) (st : LangState)
    (modHash : String) :
    ((uninstallModLanguageChanges ctx st modHash).1).langVault = st.langVault := by
  unfold uninstallModLanguageChanges
  exact (rebuildLanguageFiles_frame ctx _).1

end LangBinHandler

/-- One overlay operation preserves the flat-file invariant and never
changes an existing pristine backup in any of the three vaults. -/
theorem runSysOp_preserves (ctx : SysCtx) (hinj : BasenameInjective ctx.files)
    {st st' : SysState} (hinv : FilesInv ctx.files st.files) {op : SysOp}
    (h : runSysOp ctx st op = some st') :
    FilesInv ctx.files st'.files ∧
    (∀ bn b, st.files.vault bn = some b → st'.files.vault bn = some b) ∧
    (∀ t b, st.banks.bankVault t = some b → st'.banks.bankVault t = some b) ∧
    st'.langs.langVault = st.langs.langVault := by
  cases op with
  | installFileOp f c mh =>
    cases h
    have := GameFilesClass.installFile_inv hinv hinj f c mh
    exact ⟨this.1, this.2, fun t b hb => hb, rfl⟩
  | uninstallFilesOp mh =>
    simp only [runSysOp] at h
    cases hu : GameFilesClass.uninstallMod ctx.files st.files mh with
    | none => rw [hu] at h; cases h
    | some fs =>
      rw [hu] at h
      cases h
      have := GameFilesClass.uninstallMod_inv hinv hu
      exact ⟨this.1, fun bn b hb => by rw [this.2]; exact hb, fun t b hb => hb, rfl⟩
  | applyBnkOp mb mh tf =>
    cases h
    exact ⟨hinv, fun bn b hb => hb,
      fun t b hb => BnkHandler.applyModChanges_bankVault_stable ctx.bnk st.banks mb mh tf hb,
      rfl⟩
  | uninstallBnkOp mh =>
    cases h
    exact ⟨hinv, fun bn b hb => hb,
      fun t b hb => BnkHandler.uninstallModChanges_bankVault_stable ctx.bnk st.banks mh hb,
      rfl⟩
  | applyLangOp es mh o =>
    cases h
    refine ⟨hinv, fun bn b hb => hb, fun t b hb => hb, ?_⟩
    exact LangBinHandler.applyModLanguageChanges_langVault ctx.lang st.langs es mh o
  | uninstallLangOp mh =>
    cases h
    refine ⟨hinv, fun bn b hb => hb, fun t b hb => hb, ?_⟩
    exact LangBinHandler.uninstallModLanguageChanges_langVault ctx.lang st.langs mh

/-- Claim C2 — Pristine durability: starting from any state whose flat-file
overlay satisfies its consistency invariant (given that distinct recognized
file names have distinct basenames, as the directory walk guarantees), no
sequence of overlay operations — flat-file installs and uninstalls, bank
installs (`apply_mod_changes`) and uninstalls (`uninstall_mod_changes`),
language installs and uninstalls, forced or not — ever changes a pristine
backup once captured: every flat-file vault copy, every
`original_<bank>.bnk` backup, and every language-table backup keeps its
exact stored bytes. -/
theorem spec_C2 (ctx : SysCtx) (hinj : BasenameInjective ctx.files)
    (st : SysState) (hinv : FilesInv ctx.files st.files)
    (ops : List SysOp) (st' : SysState) (hrun : runSysOps ctx st ops = some st') :
    (∀ bn b, st.files.vault bn = some b → st'.files.vault bn = some b) ∧
    (∀ t b, st.banks.bankVault t = some b → st'.banks.bankVault t = some b) ∧
    (∀ f tb, st.langs.langVault f = some tb → st'.langs.langVault f = some tb) := by
  induction ops generalizing st with
  | nil =>
    cases hrun
    exact ⟨fun bn b hb => hb, fun t b hb => hb, fun f tb hb => hb⟩
  | cons op rest ih =>
    rw [runSysOps, List.foldlM_cons] at hrun
    cases hstep : runSysOp ctx st op with
    | none => rw [hstep] at hrun; cases hrun
    | some st₁ =>
      rw [hstep] at hrun
      obtain ⟨hinv₁, hfv, hbv, hlv⟩ := runSysOp_preserves ctx hinj hinv hstep
      obtain ⟨ih1, ih2, ih3⟩ := ih st₁ hinv₁ hrun
      refine ⟨fun bn b hb => ih1 bn b (hfv bn b hb),
        fun t b hb => ih2 t b (hbv t b hb),
        fun f tb hb => ih3 f tb (by rw [hlv]; exact hb)⟩

theorem alget_singleton {α β : Type} [DecidableEq α] {k f : α} {v w : β}
    (h : alget [(k, v)] f = some w) : f = k ∧ w = v := by
  by_cases hf : f = k
  · subst hf
    simp [alget] at h
    exact ⟨rfl, h.symm⟩
  · simp [alget, hf] at h

/-- Concrete engine context for exercising `spec_C2`. -/
def c2ctx : SysCtx :=
  { files := { hash := fun b => if b = [7] then "H" else "X", gameFiles := ["a.png"] }
    bnk := { tool := { unpack := fun _ => none, repack := fun _ _ => none }
             bnkFiles := ["t.bnk"] }
    lang := { langFiles := ["language.1.bin"] } }

/-- Concrete engine state with one captured backup in each vault. -/
def c2st : SysState :=
  { files := { origFiles := [("a.png", "H")]
               modFiles := []
               modifiedFilesMap := []
               vault := fun bn => if bn = "a.png" then some [7] else none
               live := fun _ => [7] }
    banks := { originalBnks := ["t.bnk"]
               bankVault := fun f => if f = "t.bnk" then some [1, 2] else none
               modChanges := []
               originalWems := []
               liveBanks := fun _ => [1, 2]
               installedMods := [] }
    langs := { langVault := fun f => if f = "language.1.bin" then some [("k", "v")] else none
               langLive := fun _ => [("k", "v")]
               modLangChanges := [] } }

/-- The state after running a flat-file install, a flat-file uninstall and a
bank uninstall on `c2st`. -/
def c2final : SysState :=
  { c2st with files :=
      GameFilesClass.installFile c2ctx.files c2st.files "a.png" [9] "m1" }

/-- Witness for `spec_C2`: a concrete state with one captured backup per
vault, a concrete operation list, and the backups verified unchanged. -/
theorem spec_C2_witness :
    runSysOps c2ctx c2st [SysOp.installFileOp "a.png" [9] "m1"] = some c2final ∧
    c2final.files.vault "a.png" = some [7] ∧
    c2final.banks.bankVault "t.bnk" = some [1, 2] ∧
    c2final.langs.langVault "language.1.bin" = some [("k", "v")] := by
  have hinj : BasenameInjective c2ctx.files := by
    intro f1 f2 h1 h2 hb
    simp [c2ctx] at h1 h2
    rw [h1, h2]
  have hinv : FilesInv c2ctx.files c2st.files := by
    refine ⟨by simp [c2st, keysOf], by simp [c2st, keysOf], by simp [c2st, keysOf],
      ?_, ?_, ?_, ?_⟩
    · intro f h hf
      obtain ⟨h1, h2⟩ := alget_singleton hf
      subst h1
      simp [c2ctx]
    · intro f h hf
      obtain ⟨h1, h2⟩ := alget_singleton hf
      subst h1
      subst h2
      exact ⟨[7], by decide, by decide⟩
    · intro f h hf
      obtain ⟨h1, h2⟩ := alget_singleton hf
      subst h1
      constructor
      · intro mh hmh
        simp [c2st, alget] at hmh
      · intro _
        decide
    · intro bn b hv
      by_cases hb : bn = "a.png"
      · subst hb
        have : b = [7] := by
          have := hv
          simp [c2st] at this
          exact this.symm
        subst this
        exact ⟨"a.png", by decide, by decide⟩
      · exfalso
        simp [c2st, hb] at hv
  have hrun : runSysOps c2ctx c2st [SysOp.installFileOp "a.png" [9] "m1"]
      = some c2final := rfl
  have main := spec_C2 c2ctx hinj c2st hinv _ c2final hrun
  exact ⟨hrun, main.1 "a.png" [7] (by decide), main.2.1 "t.bnk" [1, 2] (by decide),
    main.2.2 "language.1.bin" [("k", "v")] (by decide)⟩

/-- Claim C7 — Flat-file apply idempotence: for a recognized file,
`installFile` leaves the live filesystem untouched when the mod bytes hash
equal to the current live bytes, and otherwise writes the mod bytes to the
live path; in both cases it records the installing mod as the unit's
owner (the source records ownership unconditionally, which subsumes the
claim's "otherwise"). -/
theorem spec_C7 (ctx : FilesCtx) (st : GameFilesState) (f : String) (c : Bytes)
    (mh : String) (hg : f ∈ ctx.gameFiles) :
    (ctx.hash c = ctx.hash (st.live f) →
      (GameFilesClass.installFile ctx st f c mh).live = st.live) ∧
    (ctx.hash c ≠ ctx.hash (st.live f) →
      (GameFilesClass.installFile ctx st f c mh).live f = c) ∧
    alget (GameFilesClass.installFile ctx st f c mh).modifiedFilesMap f = some mh := by
  cases hc : GameFilesClass.shouldCopyOrig ctx st f with
  | true =>
    rw [GameFilesClass.installFile_eq_of_copy_true hg hc]
    refine ⟨?_, ?_, alget_alset_self _ _ _⟩
    · intro he
      dsimp only
      rw [if_neg (by rw [he]; simp)]
    · intro hne
      dsimp only
      rw [if_pos (fun he => hne (he.symm)), setFun]
      simp
  | false =>
    rw [GameFilesClass.installFile_eq_of_copy_false hg hc]
    refine ⟨?_, ?_, alget_alset_self _ _ _⟩
    · intro he
      dsimp only
      rw [if_neg (by rw [he]; simp)]
    · intro hne
      dsimp only
      rw [if_pos (fun he => hne (he.symm)), setFun]
      simp

/-- Witness for `spec_C7`: a concrete recognized file, exercised on both
the equal-hash and different-hash branch. -/
theorem spec_C7_witness :
    ("a.png" : String) ∈ c2ctx.files.gameFiles ∧
    (GameFilesClass.installFile c2ctx.files c2st.files "a.png" [7] "m1").live "a.png" = [7] ∧
    (GameFilesClass.installFile c2ctx.files c2st.files "a.png" [9] "m1").live "a.png" = [9] ∧
    alget (GameFilesClass.installFile c2ctx.files c2st.files "a.png" [9] "m1").modifiedFilesMap
      "a.png" = some "m1" := by
  have hg : ("a.png" : String) ∈ c2ctx.files.gameFiles := by
    simp [c2ctx]
  have h1 := spec_C7 c2ctx.files c2st.files "a.png" [7] "m1" hg
  have h2 := spec_C7 c2ctx.files c2st.files "a.png" [9] "m1" hg
  refine ⟨hg, ?_, h2.2.1 (by decide), h2.2.2⟩
  rw [h1.1 (by decide)]
  decide

/-- Claim C10 — No-op uninstall success: a mod with no tracked entries in an
overlay's ledger uninstalls successfully.  `uninstall_mod_changes` returns
`True` and leaves the whole bank state (in particular every live bank file)
untouched when the hash is absent from `mod_changes`;
`uninstall_mod_language_changes` returns `True` when the hash is absent
from `mod_language_changes`, leaves the tracking dict unchanged, and still
re-runs the table rebuild. -/
theorem spec_C10 (bctx : BnkCtx) (bst : BnkState) (lctx : LangCtx) (lst : LangState)
    (h : String) (hb : alget bst.modChanges h = none)
    (hl : alget lst.modLangChanges h = none) :
    BnkHandler.uninstallModChanges bctx bst h = (bst, true) ∧
    (LangBinHandler.uninstallModLanguageChanges lctx lst h).2 = true ∧
    (LangBinHandler.uninstallModLanguageChanges lctx lst h).1.modLangChanges
      = lst.modLangChanges ∧
    (LangBinHandler.uninstallModLanguageChanges lctx lst h).1
      = LangBinHandler.rebuildLanguageFiles lctx lst := by
  have hbnk : BnkHandler.uninstallModChanges bctx bst h = (bst, true) := by
    unfold BnkHandler.uninstallModChanges
    rw [hb]
  have hst : ({ lst with modLangChanges := alerase lst.modLangChanges h } : LangState)
      = lst := by
    rw [alerase_of_not_mem hl]
  have hlang : (LangBinHandler.uninstallModLanguageChanges lctx lst h).1
      = LangBinHandler.rebuildLanguageFiles lctx lst := by
    unfold LangBinHandler.uninstallModLanguageChanges
    rw [hst]
  refine ⟨hbnk, rfl, ?_, hlang⟩
  rw [hlang]
  exact (LangBinHandler.rebuildLanguageFiles_frame lctx lst).2

/-- Witness for `spec_C10`: uninstalling the untracked hash `"zz"` from the
concrete state `c2st`. -/
theorem spec_C10_witness :
    BnkHandler.uninstallModChanges c2ctx.bnk c2st.banks "zz" = (c2st.banks, true) ∧
    (LangBinHandler.uninstallModLanguageChanges c2ctx.lang c2st.langs "zz").2 = true := by
  have main := spec_C10 c2ctx.bnk c2st.banks c2ctx.lang c2st.langs "zz"
    (by decide) (by decide)
  exact ⟨main.1, main.2.1⟩

theorem replaceFirst_none_iff {t : LangTable} {k v : String} :
    LangFile.replaceFirst t k v = none ↔ k ∉ keysOf t := by
  induction t with
  | nil => simp [LangFile.replaceFirst, keysOf]
  | cons p rest ih =>
    by_cases hp : p.1 = k
    · simp [LangFile.replaceFirst, hp, keysOf]
    · simp only [LangFile.replaceFirst, if_neg hp, keysOf, List.map_cons]
      rw [Option.map_eq_none']
      simp only [List.mem_cons]
      constructor
      · intro hn hk
        rcases hk with hk | hk
        · exact hp hk.symm
        · exact (ih.mp hn) hk
      · intro hk
        exact ih.mpr (fun hm => hk (Or.inr hm))

theorem replaceFirst_length {t t' : LangTable} {k v : String}
    (h : LangFile.replaceFirst t k v = some t') : t'.length = t.length := by
  induction t generalizing t' with
  | nil => simp [LangFile.replaceFirst] at h
  | cons p rest ih =>
    by_cases hp : p.1 = k
    · simp [LangFile.replaceFirst, hp] at h
      rw [← h]
      simp
    · simp only [LangFile.replaceFirst, if_neg hp] at h
      cases hr : LangFile.replaceFirst rest k v with
      | none => rw [hr] at h; simp at h
      | some r =>
        rw [hr] at h
        simp at h
        rw [← h]
        simp [ih hr]

theorem replaceFirst_alget {t t' : LangTable} {k v : String}
    (h : LangFile.replaceFirst t k v = some t') : alget t' k = some v := by
  induction t generalizing t' with
  | nil => simp [LangFile.replaceFirst] at h
  | cons p rest ih =>
    by_cases hp : p.1 = k
    · simp [LangFile.replaceFirst, hp] at h
      rw [← h]
      simp [alget, hp.symm]
    · simp only [LangFile.replaceFirst, if_neg hp] at h
      cases hr : LangFile.replaceFirst rest k v with
      | none => rw [hr] at h; simp at h
      | some r =>
        rw [hr] at h
        simp at h
        rw [← h]
        have hk : k ≠ p.1 := fun he => hp he.symm
        simp [alget, hk]
        exact ih hr

/-- Claim C9 — `LangFile` count invariant: `__setitem__` preserves
`entry_count = entries.length` — an existing key is replaced in place (no
count or length change, and the key now maps to the new value), a new key
appends exactly one entry and bumps the count by one — so the 4-byte count
header `Save` writes always equals the number of serialized entries. -/
theorem spec_C9 (lf : LangFile) (k v : String)
    (hinv : lf.entry_count = lf.entries.length) :
    (k ∈ keysOf lf.entries →
      (lf.setItem k v).entry_count = lf.entry_count ∧
      (lf.setItem k v).entries.length = lf.entries.length ∧
      alget (lf.setItem k v).entries k = some v) ∧
    (k ∉ keysOf lf.entries →
      (lf.setItem k v).entries = lf.entries ++ [(k, v)] ∧
      (lf.setItem k v).entry_count = lf.entry_count + 1) ∧
    (lf.setItem k v).entry_count = (lf.setItem k v).entries.length ∧
    (lf.setItem k v).savePayload
      = LangFile.uint32BE (lf.setItem k v).entries.length
        ++ (lf.setItem k v).entries.foldr (fun e acc => LangFile.entryEnc e ++ acc) [] := by
  have hmain : (k ∈ keysOf lf.entries →
      (lf.setItem k v).entry_count = lf.entry_count ∧
      (lf.setItem k v).entries.length = lf.entries.length ∧
      alget (lf.setItem k v).entries k = some v) ∧
    (k ∉ keysOf lf.entries →
      (lf.setItem k v).entries = lf.entries ++ [(k, v)] ∧
      (lf.setItem k v).entry_count = lf.entry_count + 1) := by
    constructor
    · intro hk
      cases hr : LangFile.replaceFirst lf.entries k v with
      | none => exact absurd (replaceFirst_none_iff.mp hr) (by simpa using hk)
      | some t' =>
        unfold LangFile.setItem
        rw [hr]
        exact ⟨rfl, replaceFirst_length hr, replaceFirst_alget hr⟩
    · intro hk
      have hr : LangFile.replaceFirst lf.entries k v = none :=
        replaceFirst_none_iff.mpr hk
      unfold LangFile.setItem
      rw [hr]
      exact ⟨rfl, rfl⟩
  have hcount : (lf.setItem k v).entry_count = (lf.setItem k v).entries.length := by
    by_cases hk : k ∈ keysOf lf.entries
    · obtain ⟨h1, h2, -⟩ := hmain.1 hk
      rw [h1, h2, hinv]
    · obtain ⟨h1, h2⟩ := hmain.2 hk
      rw [h1, h2, hinv]
      simp
  refine ⟨hmain.1, hmain.2, hcount, ?_⟩
  unfold LangFile.savePayload
  rw [hcount]

/-- Witness for `spec_C9`: a concrete one-entry table, updated on an
existing key and on a fresh key. -/
theorem spec_C9_witness :
    (LangFile.setItem ⟨[("a", "1")], 1⟩ "a" "2").entry_count = 1 ∧
    alget (LangFile.setItem ⟨[("a", "1")], 1⟩ "a" "2").entries "a" = some "2" ∧
    (LangFile.setItem ⟨[("a", "1")], 1⟩ "b" "3").entries = [("a", "1"), ("b", "3")] ∧
    (LangFile.setItem ⟨[("a", "1")], 1⟩ "b" "3").entry_count = 2 := by
  have h1 := spec_C9 ⟨[("a", "1")], 1⟩ "a" "2" (by decide)
  have h2 := spec_C9 ⟨[("a", "1")], 1⟩ "b" "3" (by decide)
  obtain ⟨ha1, -, ha3⟩ := h1.1 (by decide)
  obtain ⟨hb1, hb2⟩ := h2.2.1 (by decide)
  exact ⟨ha1, ha3, hb1, hb2⟩

theorem mem_conflict_insert {acc : List String} {o h : String} :
    h ∈ (if o ∈ acc then acc else acc ++ [o]) ↔ h ∈ acc ∨ h = o := by
  by_cases ho : o ∈ acc
  · rw [if_pos ho]
    constructor
    · exact Or.inl
    · rintro (hm | he)
      · exact hm
      · exact he ▸ ho
  · rw [if_neg ho]
    simp

theorem filesConflict_mem_aux (st : GameFilesState) (files : List String)
    (acc : List String) (h : String) :
    h ∈ files.foldl (fun acc file =>
        match alget st.modifiedFilesMap file with
        | some owner => if owner ∈ acc then acc else acc ++ [owner]
        | none => acc) acc
      ↔ h ∈ acc ∨ ∃ f, f ∈ files ∧ alget st.modifiedFilesMap f = some h := by
  induction files generalizing acc with
  | nil => simp
  | cons f rest ih =>
    rw [List.foldl_cons]
    cases ho : alget st.modifiedFilesMap f with
    | none =>
      simp only [ho]
      rw [ih]
      constructor
      · rintro (hm | ⟨g, hg, hog⟩)
        · exact Or.inl hm
        · exact Or.inr ⟨g, List.mem_cons_of_mem _ hg, hog⟩
      · rintro (hm | ⟨g, hg, hog⟩)
        · exact Or.inl hm
        · rcases List.mem_cons.mp hg with hgf | hgr
          · subst hgf
            rw [ho] at hog
            cases hog
          · exact Or.inr ⟨g, hgr, hog⟩
    | some owner =>
      simp only [ho]
      rw [ih, mem_conflict_insert]
      constructor
      · rintro ((hm | he) | ⟨g, hg, hog⟩)
        · exact Or.inl hm
        · exact Or.inr ⟨f, List.mem_cons_self _ _, he ▸ ho⟩
        · exact Or.inr ⟨g, List.mem_cons_of_mem _ hg, hog⟩
      · rintro (hm | ⟨g, hg, hog⟩)
        · exact Or.inl (Or.inl hm)
        · rcases List.mem_cons.mp hg with hgf | hgr
          · subst hgf
            rw [ho] at hog
            injection hog with hog
            exact Or.inl (Or.inr hog.symm)
          · exact Or.inr ⟨g, hgr, hog⟩

theorem anchorsConflict_mem_aux (swfSt : GameSwfState) (anchors : List String)
    (acc : List String) (h : String) :
    h ∈ anchors.foldl (fun acc anchor =>
        match alget swfSt.modifiedAnchorsMap anchor with
        | some owner =>
          if owner ≠ "" then (if owner ∈ acc then acc else acc ++ [owner]) else acc
        | none => acc) acc
      ↔ h ∈ acc ∨ ∃ a, a ∈ anchors ∧
          alget swfSt.modifiedAnchorsMap a = some h ∧ h ≠ "" := by
  induction anchors generalizing acc with
  | nil => simp
  | cons a rest ih =>
    rw [List.foldl_cons]
    cases ho : alget swfSt.modifiedAnchorsMap a with
    | none =>
      simp only [ho]
      rw [ih]
      constructor
      · rintro (hm | ⟨g, hg, hog⟩)
        · exact Or.inl hm
        · exact Or.inr ⟨g, List.mem_cons_of_mem _ hg, hog⟩
      · rintro (hm | ⟨g, hg, hog, hne⟩)
        · exact Or.inl hm
        · rcases List.mem_cons.mp hg with hgf | hgr
          · subst hgf
            rw [ho] at hog
            cases hog
          · exact Or.inr ⟨g, hgr, hog, hne⟩
    | some owner =>
      by_cases hne : owner ≠ ""
      · simp only [ho, if_pos hne]
        rw [ih, mem_conflict_insert]
        constructor
        · rintro ((hm | he) | ⟨g, hg, hog⟩)
          · exact Or.inl hm
          · exact Or.inr ⟨a, List.mem_cons_self _ _, he ▸ ho, he ▸ hne⟩
          · exact Or.inr ⟨g, List.mem_cons_of_mem _ hg, hog⟩
        · rintro (hm | ⟨g, hg, hog, hh⟩)
          · exact Or.inl (Or.inl hm)
          · rcases List.mem_cons.mp hg with hgf | hgr
            · subst hgf
              rw [ho] at hog
              injection hog with hog
              exact Or.inl (Or.inr hog.symm)
            · exact Or.inr ⟨g, hgr, hog, hh⟩
      · simp only [ho, if_neg hne]
        push_neg at hne
        rw [ih]
        constructor
        · rintro (hm | ⟨g, hg, hog⟩)
          · exact Or.inl hm
          · exact Or.inr ⟨g, List.mem_cons_of_mem _ hg, hog⟩
        · rintro (hm | ⟨g, hg, hog, hh⟩)
          · exact Or.inl hm
          · rcases List.mem_cons.mp hg with hgf | hgr
            · subst hgf
              rw [ho] at hog
              injection hog with hog
              exact absurd (hog ▸ hne) hh
            · exact Or.inr ⟨g, hgr, hog, hh⟩

theorem swfJobsConflict_mem_aux (swfJobs : List (GameSwfState × List String))
    (acc : List String) (h : String) :
    h ∈ swfJobs.foldl (fun acc job =>
        job.2.foldl (fun acc anchor =>
          match alget job.1.modifiedAnchorsMap anchor with
          | some owner =>
            if owner ≠ "" then (if owner ∈ acc then acc else acc ++ [owner]) else acc
          | none => acc) acc) acc
      ↔ h ∈ acc ∨ ∃ job, job ∈ swfJobs ∧ ∃ a, a ∈ job.2 ∧
          alget job.1.modifiedAnchorsMap a = some h ∧ h ≠ "" := by
  induction swfJobs generalizing acc with
  | nil => simp
  | cons job rest ih =>
    rw [List.foldl_cons, ih, anchorsConflict_mem_aux]
    constructor
    · rintro ((hm | ⟨a, ha, hog, hne⟩) | ⟨j, hj, a, ha, hog, hne⟩)
      · exact Or.inl hm
      · exact Or.inr ⟨job, List.mem_cons_self _ _, a, ha, hog, hne⟩
      · exact Or.inr ⟨j, List.mem_cons_of_mem _ hj, a, ha, hog, hne⟩
    · rintro (hm | ⟨j, hj, a, ha, hog, hne⟩)
      · exact Or.inl (Or.inl hm)
      · rcases List.mem_cons.mp hj with hjf | hjr
        · subst hjf
          exact Or.inl (Or.inr ⟨a, ha, hog, hne⟩)
        · exact Or.inr ⟨j, hjr, a, ha, hog, hne⟩

/-- Claim C1, counterexample: conflict detection does not exclude the
requesting mod.  In a state where `"a.png"` is owned by `"h1"`, the
conflict set `getModConflict ["a.png"] "h1"` computed for `"h1"` itself is
`["h1"]` — it contains the requesting mod's own hash, where the claim
requires the set of owners *different from* `"h1"`, i.e. the empty set. -/
theorem spec_C1_counterexample :
    GameFilesClass.getModConflict
      { origFiles := [], modFiles := [], modifiedFilesMap := [("a.png", "h1")]
        vault := fun _ => none, live := fun _ => [] }
      ["a.png"] "h1" = ["h1"] ∧
    ModClass.getModConflict
      { origFiles := [], modFiles := [], modifiedFilesMap := [("a.png", "h1")]
        vault := fun _ => none, live := fun _ => [] }
      ["a.png"] "h1" [] = ["h1"] := by
  constructor <;> rfl

/-- Claim C1, amended: `getModConflict` returns exactly the owners recorded
for the requested units — regardless of whether they equal the requesting
mod's hash, which both `GameFilesClass.getModConflict` and
`ModClass.getModConflict` accept but never consult (so a mod that already
owns every unit it references gets a conflict set containing its own hash,
not the empty set).  For the SWF part an owner is reported when it is
recorded for one of the mod's anchors and is non-empty (the source's
truthiness test). -/
theorem spec_C1 (filesSt : GameFilesState) (modFiles : List String)
    (modHash : String) (swfJobs : List (GameSwfState × List String)) (h : String) :
    (h ∈ GameFilesClass.getModConflict filesSt modFiles modHash ↔
      ∃ f, f ∈ modFiles ∧ alget filesSt.modifiedFilesMap f = some h) ∧
    (h ∈ ModClass.getModConflict filesSt modFiles modHash swfJobs ↔
      (∃ f, f ∈ modFiles ∧ alget filesSt.modifiedFilesMap f = some h) ∨
      (∃ job, job ∈ swfJobs ∧ ∃ a, a ∈ job.2 ∧
        alget job.1.modifiedAnchorsMap a = some h ∧ h ≠ "")) := by
  have hfiles := filesConflict_mem_aux filesSt modFiles [] h
  simp only [List.not_mem_nil, false_or] at hfiles
  constructor
  · exact hfiles
  · unfold ModClass.getModConflict GameFilesClass.getModConflict
    rw [swfJobsConflict_mem_aux, hfiles]

/-- Claim C8 — Vault-key aliasing: the flat-file overlay stores and looks up
pristine backups under `os.path.basename` of the unit's name.  For two
distinct units sharing a basename, the first snapshot of the second unit
overwrites the first unit's pristine copy (the cache slot under the shared
basename then holds the second unit's pre-install live bytes), and a later
`repairFile` of the first unit restores whichever bytes were backed up
last — the second unit's. -/
theorem spec_C8 (ctx : FilesCtx) (st : GameFilesState) (f1 f2 : String) (c : Bytes)
    (mh : String) (hne : f1 ≠ f2) (hbase : basename f1 = basename f2)
    (hg2 : f2 ∈ ctx.gameFiles) (ho2 : alget st.origFiles f2 = none)
    (ho1 : (alget st.origFiles f1).isSome) :
    (GameFilesClass.installFile ctx st f2 c mh).vault (basename f1)
      = some (st.live f2) ∧
    ∃ st2, GameFilesClass.repairFile ctx (GameFilesClass.installFile ctx st f2 c mh) f1
        = some st2 ∧
      (f1 ∈ ctx.gameFiles → st2.live f1 = st.live f2) := by
  rw [GameFilesClass.installFile_eq_of_copy_true hg2
    (by simp [GameFilesClass.shouldCopyOrig, ho2])]
  have hv : (fun bn => if bn = basename f2 then some (st.live f2) else st.vault bn)
      (basename f1) = some (st.live f2) := by
    rw [hbase]
    simp
  refine ⟨hv, ?_⟩
  unfold GameFilesClass.repairFile
  dsimp only
  rw [alget_alset_ne hne]
  cases ho1v : alget st.origFiles f1 with
  | none => rw [ho1v] at ho1; simp at ho1
  | some h0 =>
    rw [hbase]
    simp only [if_pos rfl]
    refine ⟨_, rfl, ?_⟩
    intro hg1
    rw [if_pos hg1]
    simp [setFun]

/-- Witness for `spec_C8`: units `"d/x.png"` and `"x.png"` share the
basename `"x.png"`; after installing a mod over `"x.png"`, the shared cache
slot holds `"x.png"`'s old bytes `[2]`, and repairing `"d/x.png"` writes
those bytes onto `"d/x.png"`. -/
theorem spec_C8_witness :
    (GameFilesClass.installFile
      { hash := fun b => if b = [1] then "H" else "X", gameFiles := ["d/x.png", "x.png"] }
      { origFiles := [("d/x.png", "H")], modFiles := [], modifiedFilesMap := []
        vault := fun bn => if bn = "x.png" then some [1] else none
        live := fun f => if f = "x.png" then [2] else [1] }
      "x.png" [9] "m2").vault (basename "d/x.png") = some [2] ∧
    (GameFilesClass.repairFile
      { hash := fun b => if b = [1] then "H" else "X", gameFiles := ["d/x.png", "x.png"] }
      (GameFilesClass.installFile
        { hash := fun b => if b = [1] then "H" else "X", gameFiles := ["d/x.png", "x.png"] }
        { origFiles := [("d/x.png", "H")], modFiles := [], modifiedFilesMap := []
          vault := fun bn => if bn = "x.png" then some [1] else none
          live := fun f => if f = "x.png" then [2] else [1] }
        "x.png" [9] "m2")
      "d/x.png").map (fun s => s.live "d/x.png") = some [2] := by
  have main := spec_C8
    { hash := fun b => if b = [1] then "H" else "X", gameFiles := ["d/x.png", "x.png"] }
    { origFiles := [("d/x.png", "H")], modFiles := [], modifiedFilesMap := []
      vault := fun bn => if bn = "x.png" then some [1] else none
      live := fun f => if f = "x.png" then [2] else [1] }
    "d/x.png" "x.png" [9] "m2"
    (by decide) (by decide) (by decide) (by decide) (by decide)
  obtain ⟨h1, st2, hr, hl⟩ := main
  refine ⟨h1, ?_⟩
  rw [hr]
  simp only [Option.map_some']
  exact congrArg some (hl (by decide))

theorem alget_append_single {α β : Type} [DecidableEq α] {t : List (α × β)} {k : α}
    {v : β} (hk : k ∉ keysOf t) : alget (t ++ [(k, v)]) k = some v := by
  induction t with
  | nil => simp [alget]
  | cons p rest ih =>
    rw [keysOf, List.map_cons] at hk
    have h1 : k ≠ p.1 := fun he => hk (he ▸ List.mem_cons_self _ _)
    have h2 : k ∉ keysOf rest := fun hm => hk (List.mem_cons_of_mem _ hm)
    simp only [List.cons_append, alget, if_neg h1]
    exact ih h2

theorem alget_applyKVs_single (t : LangTable) (k v : String) :
    alget (LangBinHandler.applyKVs t [(k, v)]) k = some v := by
  unfold LangBinHandler.applyKVs
  rw [List.foldl_cons, List.foldl_nil]
  cases hr : LangFile.replaceFirst t k v with
  | some es => exact replaceFirst_alget hr
  | none => exact alget_append_single (replaceFirst_none_iff.mp hr)

namespace LangBinHandler

/-- `_get_target_file` on a plain language file name resolves to itself. -/
theorem getTargetFile_self {ctx : LangCtx} {tf : String} (hne : tf ≠ "")
    (hbase : basename tf = tf) (htf : tf ∈ ctx.langFiles) :
    getTargetFile ctx tf = some tf := by
  unfold getTargetFile
  rw [if_neg hne, hbase, if_pos htf]

/-- `apply_mod_language_changes` records the mod's parsed entries under
`(modHash, targetFileName)` and hands the updated tracking dict to the
rebuild. -/
theorem applyModLanguageChanges_eq {ctx : LangCtx} {st : LangState}
    {es : List (String × String)} {mh o tf : String}
    (hT : getTargetFile ctx o = some tf) :
    (applyModLanguageChanges ctx st es mh o).1
      = rebuildLanguageFiles ctx
          { st with modLangChanges := alset st.modLangChanges mh (alset ((alget st.modLangChanges mh).getD []) tf (es.foldl (fun m kv => alset m kv.1 kv.2) [])) } := by
  unfold applyModLanguageChanges
  rw [hT]

/-- Rebuild with exactly one tracked mod setting one key of one table: the
rebuilt table maps the key to that mod's value. -/
theorem rebuild_lookup_one (ctx : LangCtx) (st : LangState)
    (h1 tf k v1 : String)
    (hmc : st.modLangChanges = [(h1, [(tf, [(k, v1)])])])
    (htf : tf ∈ ctx.langFiles) :
    alget ((rebuildLanguageFiles ctx st).langLive tf) k = some v1 := by
  unfold rebuildLanguageFiles
  rw [hmc]
  simp only [keysOf, List.map_cons, List.map_nil, ssort, sinsert,
    List.foldl_cons, List.foldl_nil, alget, alset, Option.getD_some, Option.getD_none,
    eq_self_iff_true, ite_true, ite_false, if_true, if_false, htf]
  rw [setFun_self]
  exact alget_applyKVs_single _ _ _

/-- Rebuild with two tracked mods both setting the same key of the same
table: the mod whose hash sorts last wins. -/
theorem rebuild_lookup_two (ctx : LangCtx) (st : LangState)
    (h1 h2 tf k v1 v2 : String)
    (hmc : st.modLangChanges = [(h1, [(tf, [(k, v1)])]), (h2, [(tf, [(k, v2)])])])
    (hlt : h1 < h2) (hne : h1 ≠ h2) (htf : tf ∈ ctx.langFiles) :
    alget ((rebuildLanguageFiles ctx st).langLive tf) k = some v2 := by
  have hne21 : h2 ≠ h1 := fun he => hne he.symm
  unfold rebuildLanguageFiles
  rw [hmc]
  simp only [keysOf, List.map_cons, List.map_nil, ssort, sinsert, hlt, hne21,
    List.foldl_cons, List.foldl_nil, alget, alset, Option.getD_some, Option.getD_none,
    eq_self_iff_true, ite_true, ite_false, if_true, if_false, htf]
  rw [setFun_self]
  exact alget_applyKVs_single _ _ _

end LangBinHandler

/-- Claim C5 — Deterministic table rebuild order: the rebuild aggregates the
per-mod key/value maps in ascending mod-hash order over the pristine table,
so on a key collision the later-sorted mod's value wins.  Concretely:
starting from a state with no tracked language changes, after installed mod
`h1` sets table key `k` to `v1` and installed mod `h2` (with `h1 < h2`)
sets `k` to `v2`, the rebuilt table `tf` maps `k` to `v2`; after
uninstalling `h2`, a rebuild maps it back to `v1`. -/
theorem spec_C5 (ctx : LangCtx) (st0 : LangState) (tf k h1 h2 v1 v2 : String)
    (hempty : st0.modLangChanges = [])
    (htf : tf ∈ ctx.langFiles) (hbase : basename tf = tf) (htfne : tf ≠ "")
    (hlt : h1 < h2) (hne : h1 ≠ h2) :
    alget (((LangBinHandler.applyModLanguageChanges ctx
        (LangBinHandler.applyModLanguageChanges ctx st0 [(k, v1)] h1 tf).1
        [(k, v2)] h2 tf).1).langLive tf) k = some v2 ∧
    alget (((LangBinHandler.uninstallModLanguageChanges ctx
        (LangBinHandler.applyModLanguageChanges ctx
          (LangBinHandler.applyModLanguageChanges ctx st0 [(k, v1)] h1 tf).1
          [(k, v2)] h2 tf).1 h2).1).langLive tf) k = some v1 := by
  have hne21 : h2 ≠ h1 := fun he => hne he.symm
  have hT : LangBinHandler.getTargetFile ctx tf = some tf :=
    LangBinHandler.getTargetFile_self htfne hbase htf
  have h1mc : ((LangBinHandler.applyModLanguageChanges ctx st0 [(k, v1)] h1 tf).1).modLangChanges
      = [(h1, [(tf, [(k, v1)])])] := by
    rw [LangBinHandler.applyModLanguageChanges_eq hT,
      (LangBinHandler.rebuildLanguageFiles_frame ctx _).2]
    dsimp only
    rw [hempty]
    simp [alset, alget]
  have h2mc : ((LangBinHandler.applyModLanguageChanges ctx
      (LangBinHandler.applyModLanguageChanges ctx st0 [(k, v1)] h1 tf).1
      [(k, v2)] h2 tf).1).modLangChanges
      = [(h1, [(tf, [(k, v1)])]), (h2, [(tf, [(k, v2)])])] := by
    rw [LangBinHandler.applyModLanguageChanges_eq hT,
      (LangBinHandler.rebuildLanguageFiles_frame ctx _).2]
    dsimp only
    rw [h1mc]
    simp [alset, alget, hne21]
  constructor
  · rw [LangBinHandler.applyModLanguageChanges_eq hT]
    apply LangBinHandler.rebuild_lookup_two ctx _ h1 h2 tf k v1 v2 _ hlt hne htf
    dsimp only
    rw [h1mc]
    simp [alset, alget, hne21]
  · unfold LangBinHandler.uninstallModLanguageChanges
    dsimp only
    apply LangBinHandler.rebuild_lookup_one ctx _ h1 tf k v1 _ htf
    dsimp only
    rw [h2mc]
    simp [alerase, hne21]

/-- Witness for `spec_C5`: mods `"m1"` and `"m2"` both set `"ui.title"` in
`language.1.bin`, first to `"Hello"`, then to `"World"`. -/
theorem spec_C5_witness :
    alget (((LangBinHandler.applyModLanguageChanges c2ctx.lang
        (LangBinHandler.applyModLanguageChanges c2ctx.lang c2st.langs
          [("ui.title", "Hello")] "m1" "language.1.bin").1
        [("ui.title", "World")] "m2" "language.1.bin").1).langLive "language.1.bin")
      "ui.title" = some "World" ∧
    alget (((LangBinHandler.uninstallModLanguageChanges c2ctx.lang
        (LangBinHandler.applyModLanguageChanges c2ctx.lang
          (LangBinHandler.applyModLanguageChanges c2ctx.lang c2st.langs
            [("ui.title", "Hello")] "m1" "language.1.bin").1
          [("ui.title", "World")] "m2" "language.1.bin").1 "m2").1).langLive
        "language.1.bin") "ui.title" = some "Hello" :=
  spec_C5 c2ctx.lang c2st.langs "language.1.bin" "ui.title" "m1" "m2" "Hello" "World"
    (by decide) (by decide) (by decide) (by decide)
    (by rw [String.lt_iff_toList_lt]; decide) (by decide)

/-- Bank context whose repack tool always emits the bytes `[50]`, which
unpack to a single entry — fewer than the pristine bank's two. -/
def c3ctx : BnkCtx :=
  { tool :=
      { unpack := fun b =>
          if b = [100] then some [(1, [5])]
          else if b = [1, 2] then some [(1, [0]), (2, [0])]
          else if b = [50] then some [(9, [9])]
          else none
        repack := fun _ _ => some [50] }
    bnkFiles := ["t.bnk"] }

/-- Bank state whose live `t.bnk` holds a previously installed mod's
composite `[7, 7]`, different from the pristine backup `[1, 2]`. -/
def c3st : BnkState :=
  { originalBnks := ["t.bnk"]
    bankVault := fun f => if f = "t.bnk" then some [1, 2] else none
    modChanges := []
    originalWems := []
    liveBanks := fun f => if f = "t.bnk" then [7, 7] else []
    installedMods := ["mA"] }

/-- Claim C3, counterexample: when the rebuilt bank's entry count differs
from the pristine count, `apply_mod_changes` reports failure and does not
install the temporary output — but it does NOT leave the live bank file
unchanged: it overwrites the live bytes `[7, 7]` (another mod's composite)
with the pristine backup `[1, 2]`. -/
theorem spec_C3_counterexample :
    (BnkHandler.applyModChanges c3ctx c3st [100] "mB" "t.bnk").2 = false ∧
    c3st.liveBanks "t.bnk" = [7, 7] ∧
    (BnkHandler.applyModChanges c3ctx c3st [100] "mB" "t.bnk").1.liveBanks "t.bnk"
      = [1, 2] ∧
    ([1, 2] : Bytes) ≠ [7, 7] := by
  refine ⟨?_, ?_, ?_, ?_⟩ <;> decide

/-- Claim C3, amended: if, after repacking a bank, unpacking the temporary
output yields an entry count different from the pristine entry count,
`apply_mod_changes` does not install the temporary output and reports the
failure (returns `False`) — but instead of leaving the live bank unchanged
it restores it from the pristine backup, so after the failed call the live
bank holds the pristine bytes (which differ from its pre-call contents
whenever other mods' changes were live). -/
theorem spec_C3 (ctx : BnkCtx) (st : BnkState) (modBnk : Bytes)
    (modHash targetFile : String) (p out : Bytes)
    (ms gs rs : List (Nat × Bytes))
    (htf : targetFile ∈ ctx.bnkFiles) (hend : strEndsWith targetFile ".bnk")
    (hob : targetFile ∈ st.originalBnks)
    (hvault : st.bankVault targetFile = some p)
    (hm : ctx.tool.unpack modBnk = some ms) (hms : ms ≠ [])
    (hg : ctx.tool.unpack p = some gs) (hgs : gs ≠ [])
    (hrep : ∀ d, ctx.tool.repack p d = some out)
    (hver : ctx.tool.unpack out = some rs)
    (hcount : rs.length ≠ gs.length) :
    (BnkHandler.applyModChanges ctx st modBnk modHash targetFile).2 = false ∧
    (BnkHandler.applyModChanges ctx st modBnk modHash targetFile).1.liveBanks targetFile
      = p := by
  have hbk : BnkHandler.backupOriginalFile ctx
      { st with modChanges := st.modChanges.filter (fun q => q.1 ∈ st.installedMods) }
      targetFile
      = some { st with modChanges := st.modChanges.filter (fun q => q.1 ∈ st.installedMods) } := by
    unfold BnkHandler.backupOriginalFile
    rw [if_pos ⟨htf, hend⟩, if_pos hob]
  unfold BnkHandler.applyModChanges
  dsimp only
  rw [if_pos htf, hbk]
  simp only [hm, hms, hvault, hg, hgs, hrep, hver, Option.getD_some,
    ite_true, ite_false, if_neg, not_false_iff]
  rw [if_neg hcount]
  unfold BnkHandler.restoreLiveFromBackup
  rw [if_pos (by exact hob)]
  dsimp only
  rw [hvault]
  dsimp only [Option.getD_some]
  rw [setFun_self]
  exact ⟨rfl, rfl⟩

/-- Witness for `spec_C3`: the concrete faulty-tool context `c3ctx` and
state `c3st`. -/
theorem spec_C3_witness :
    (BnkHandler.applyModChanges c3ctx c3st [100] "mB" "t.bnk").2 = false ∧
    (BnkHandler.applyModChanges c3ctx c3st [100] "mB" "t.bnk").1.liveBanks "t.bnk"
      = [1, 2] :=
  spec_C3 c3ctx c3st [100] "mB" "t.bnk" [1, 2] [50]
    [(1, [5])] [(1, [0]), (2, [0])] [(9, [9])]
    (by decide) (by decide) (by decide) (by decide) (by decide) (by decide)
    (by decide) (by decide) (fun d => rfl) (by decide) (by decide)

/-- Bank context for the round-trip check: the tool can unpack the pristine
bank `[1, 2]`; repack is never reached. -/
def c4ctx : BnkCtx :=
  { tool :=
      { unpack := fun b => if b = [1, 2] then some [(1, [0]), (2, [0])] else none
        repack := fun _ _ => none }
    bnkFiles := ["t.bnk"] }

/-- Bank state in which mod `"mA"` is the only installed mod: it owns WEM 1
of `t.bnk`, whose live bytes `[9, 9]` are `"mA"`'s composite while the
pristine backup holds `[1, 2]`. -/
def c4st : BnkState :=
  { originalBnks := ["t.bnk"]
    bankVault := fun f => if f = "t.bnk" then some [1, 2] else none
    modChanges := [("mA", [("t.bnk", [(1, [9])])])]
    originalWems := [("t.bnk", [(1, [0])])]
    liveBanks := fun f => if f = "t.bnk" then [9, 9] else []
    installedMods := ["mA"] }

/-- Claim C4 — Round-trip, evaluated at the failing input: uninstalling the
last mod that touched a bank removes it from tracking and reports success,
but because `uninstall_mod_changes` skips the rebuild when no remaining
mods exist and no WEM was applied (`if len(remaining_mods) > 0 or
applied_count > 0`), the live bank keeps the uninstalled mod's bytes
`[9, 9]` instead of being restored to the pristine `[1, 2]` — contradicting
both the round-trip property and the function's own log text ("No remaining
mods - restoring to original state"). -/
theorem spec_C4 :
    (BnkHandler.uninstallModChanges c4ctx c4st "mA").2 = true ∧
    (BnkHandler.uninstallModChanges c4ctx c4st "mA").1.modChanges = [] ∧
    (BnkHandler.uninstallModChanges c4ctx c4st "mA").1.liveBanks "t.bnk" = [9, 9] ∧
    c4st.bankVault "t.bnk" = some [1, 2] ∧
    ([9, 9] : Bytes) ≠ [1, 2] := by
  refine ⟨by decide, by rfl, by decide, by decide, by decide⟩

namespace GameSwf

theorem getTagByName_mem {tags : List (Nat × String)} {n : String} {e : Nat}
    (h : getTagByName tags n = some e) : (e, n) ∈ tags := by
  unfold getTagByName at h
  cases hf : tags.find? (fun p => p.2 = n) with
  | none => rw [hf] at h; cases h
  | some q =>
    rw [hf] at h
    have hmem := List.mem_of_find?_eq_some hf
    have hpred := List.find?_some hf
    simp at hpred h
    cases q
    simp at hpred h
    rw [h] at hmem
    rw [hpred] at hmem
    exact hmem

theorem getTagByName_alget {tags : List (Nat × String)} {n : String} {e : Nat}
    (hnd : (keysOf tags).Nodup) (h : getTagByName tags n = some e) :
    alget tags e = some n :=
  alget_of_mem_nodup hnd (getTagByName_mem h)

theorem getTagByName_inj {tags : List (Nat × String)} {n1 n2 : String} {e : Nat}
    (hnd : (keysOf tags).Nodup) (h1 : getTagByName tags n1 = some e)
    (h2 : getTagByName tags n2 = some e) : n1 = n2 := by
  have a1 := getTagByName_alget hnd h1
  have a2 := getTagByName_alget hnd h2
  rw [a1] at a2
  injection a2

theorem alget_foldl_alerase {el : List (Nat × SwfElement)} {ns : List Nat} {k : Nat}
    (hk : k ∉ ns) :
    alget (ns.foldl (fun e i => alerase e i) el) k = alget el k := by
  induction ns generalizing el with
  | nil => rfl
  | cons i rest ih =>
    rw [List.foldl_cons]
    have hki : k ≠ i := fun he => hk (he ▸ List.mem_cons_self _ _)
    have hkr : k ∉ rest := fun hm => hk (List.mem_cons_of_mem _ hm)
    rw [ih hkr, alget_alerase_ne hki]

/-- Well-formedness of a game SWF relative to a reference state `st0`: the
symbol table has unique ids, clone ids recorded in `anchors` never carry a
symbol name (`importSound`/`importSprite` remove any symbol tag at a fresh
clone id), and no anchor's live element lists another anchor's symbol id
among its needed characters (each import re-points dependencies at freshly
cloned ids). -/
def SwfWf (st0 : GameSwfState) : Prop :=
  (keysOf st0.symbolTags).Nodup ∧
  (∀ p ∈ st0.anchors, alget st0.symbolTags p.2 = none) ∧
  (∀ a ea el b eb, a ≠ b → getTagByName st0.symbolTags a = some ea →
    alget st0.elements ea = some el → getTagByName st0.symbolTags b = some eb →
    eb ∉ neededOf el)

/-- One repair step for anchor `α` touches no other anchor's ledger entries,
script, AS3 text, or element (given `SwfWf`-style disjointness relative to
`st0`, which the current state `cur` refines). -/
theorem uninstallAnchorStep_frame (st0 cur : GameSwfState) (α : String)
    (hwf : SwfWf st0)
    (J1 : cur.symbolTags = st0.symbolTags)
    (J7 : ∀ p ∈ cur.anchors, p ∈ st0.anchors)
    (Jα : ∀ ea, getTagByName st0.symbolTags α = some ea →
      (alget cur.elements ea = alget st0.elements ea ∨ alget cur.elements ea = none)) :
    (uninstallAnchorStep cur α).symbolTags = cur.symbolTags ∧
    (∀ x, x ≠ α →
      alget (uninstallAnchorStep cur α).modifiedAnchorsMap x
        = alget cur.modifiedAnchorsMap x) ∧
    (∀ x, x ≠ α → alget (uninstallAnchorStep cur α).scripts x = alget cur.scripts x) ∧
    (∀ x, x ≠ α → alget (uninstallAnchorStep cur α).anchors x = alget cur.anchors x) ∧
    (∀ x, x ≠ α → (uninstallAnchorStep cur α).as3 x = cur.as3 x) ∧
    (∀ b eb, b ≠ α → getTagByName st0.symbolTags b = some eb →
      alget (uninstallAnchorStep cur α).elements eb = alget cur.elements eb) ∧
    (∀ p ∈ (uninstallAnchorStep cur α).anchors, p ∈ cur.anchors) := by
  obtain ⟨Hsym, Hanch0, Hneed⟩ := hwf
  unfold uninstallAnchorStep
  by_cases hscr : (alget cur.scripts α).isSome
  · rw [if_pos hscr]
    refine ⟨rfl, fun x hx => alget_alerase_ne hx, fun x hx => alget_alerase_ne hx,
      fun x hx => rfl, fun x hx => ?_, fun b eb hb hbt => rfl, fun p hp => hp⟩
    dsimp only
    rw [if_neg hx]
  · rw [if_neg hscr]
    cases ha : alget cur.anchors α with
    | none =>
      dsimp only
      exact ⟨rfl, fun _ _ => rfl, fun _ _ => rfl, fun _ _ => rfl, fun _ _ => rfl,
        fun _ _ _ _ => rfl, fun p hp => hp⟩
    | some origElId =>
      dsimp only
      cases ho : alget cur.elements origElId with
      | none =>
        dsimp only
        exact ⟨rfl, fun _ _ => rfl, fun _ _ => rfl, fun _ _ => rfl, fun _ _ => rfl,
          fun _ _ _ _ => rfl, fun p hp => hp⟩
      | some origEl =>
        dsimp only
        cases ht : getTagByName cur.symbolTags α with
        | none =>
          dsimp only
          exact ⟨rfl, fun _ _ => rfl, fun _ _ => rfl, fun _ _ => rfl, fun _ _ => rfl,
            fun _ _ _ _ => rfl, fun p hp => hp⟩
        | some eα =>
          dsimp only
          cases hm : alget cur.elements eα with
          | none =>
            dsimp only
            exact ⟨rfl, fun _ _ => rfl, fun _ _ => rfl, fun _ _ => rfl, fun _ _ => rfl,
              fun _ _ _ _ => rfl, fun p hp => hp⟩
          | some modEl =>
            dsimp only
            have hsym' : (keysOf cur.symbolTags).Nodup := by rw [J1]; exact Hsym
            have htα : getTagByName st0.symbolTags α = some eα := by rw [← J1]; exact ht
            have F1 : alget cur.symbolTags eα = some α := getTagByName_alget hsym' ht
            have hsymSet : alset cur.symbolTags eα α = cur.symbolTags :=
              alset_eq_of_alget F1
            have horigNone : alget st0.symbolTags origElId = none :=
              Hanch0 _ (J7 _ (mem_of_alget ha))
            have hkeyFacts : ∀ b eb, b ≠ α → getTagByName st0.symbolTags b = some eb →
                eb ≠ eα ∧ eb ≠ origElId := by
              intro b eb hb hbt
              constructor
              · intro he
                exact hb (getTagByName_inj Hsym (he ▸ hbt) htα)
              · intro he
                have := getTagByName_alget Hsym hbt
                rw [he, horigNone] at this
                cases this
            have helSt0 : alget st0.elements eα = some modEl := by
              rcases Jα eα htα with hj | hj
              · rw [← hj]; exact hm
              · rw [hm] at hj; cases hj
            cases modEl with
            | other d =>
              dsimp only
              exact ⟨rfl, fun _ _ => rfl, fun _ _ => rfl, fun _ _ => rfl, fun _ _ => rfl,
                fun _ _ _ _ => rfl, fun p hp => hp⟩
            | sound d =>
              refine ⟨hsymSet, fun x hx => alget_alerase_ne hx, fun x hx => rfl,
                fun x hx => alget_alerase_ne hx, fun x hx => rfl, ?_,
                fun p hp => mem_of_mem_alerase hp⟩
              intro b eb hb hbt
              obtain ⟨hne1, hne2⟩ := hkeyFacts b eb hb hbt
              dsimp only
              rw [alget_alset_ne hne1, alget_alerase_ne hne2]
            | sprite d ns =>
              refine ⟨hsymSet, fun x hx => alget_alerase_ne hx, fun x hx => rfl,
                fun x hx => alget_alerase_ne hx, fun x hx => rfl, ?_,
                fun p hp => mem_of_mem_alerase hp⟩
              intro b eb hb hbt
              obtain ⟨hne1, hne2⟩ := hkeyFacts b eb hb hbt
              have hnotns : eb ∉ ns :=
                Hneed α eα (SwfElement.sprite d ns) b eb
                  (fun he => hb he.symm) htα helSt0 hbt
              dsimp only
              rw [alget_alset_ne hne1, alget_alerase_ne hne2, alget_foldl_alerase hnotns]

/-- The repair loop of `GameSwf.uninstallMod` over a snapshot: anchors not
processed (in particular anchors owned by other mods) keep their ledger
entries, script text, anchor clone id, and bound element. -/
theorem uninstallMod_fold_frame (st0 : GameSwfState) (A β : String) (hwf : SwfWf st0) :
    ∀ (rest : List (String × String)) (cur : GameSwfState),
    (keysOf rest).Nodup →
    (∀ a, (a, A) ∈ rest → a ≠ β) →
    cur.symbolTags = st0.symbolTags →
    (∀ p ∈ cur.anchors, p ∈ st0.anchors) →
    (∀ a ea, (a, A) ∈ rest → getTagByName st0.symbolTags a = some ea →
      (alget cur.elements ea = alget st0.elements ea ∨ alget cur.elements ea = none)) →
    ((rest.foldl (fun s p => if p.2 = A then uninstallAnchorStep s p.1 else s)
        cur).symbolTags = cur.symbolTags ∧
     alget (rest.foldl (fun s p => if p.2 = A then uninstallAnchorStep s p.1 else s)
        cur).modifiedAnchorsMap β = alget cur.modifiedAnchorsMap β ∧
     alget (rest.foldl (fun s p => if p.2 = A then uninstallAnchorStep s p.1 else s)
        cur).scripts β = alget cur.scripts β ∧
     alget (rest.foldl (fun s p => if p.2 = A then uninstallAnchorStep s p.1 else s)
        cur).anchors β = alget cur.anchors β ∧
     (rest.foldl (fun s p => if p.2 = A then uninstallAnchorStep s p.1 else s)
        cur).as3 β = cur.as3 β ∧
     (∀ eb, getTagByName st0.symbolTags β = some eb →
       alget (rest.foldl (fun s p => if p.2 = A then uninstallAnchorStep s p.1 else s)
          cur).elements eb = alget cur.elements eb)) := by
  intro rest
  induction rest with
  | nil =>
    intro cur _ _ _ _ _
    exact ⟨rfl, rfl, rfl, rfl, rfl, fun _ _ => rfl⟩
  | cons p rest' ih =>
    intro cur hnd hall J1 J7 J8
    have hndt := nodup_keys_cons hnd
    rw [List.foldl_cons]
    by_cases hp : p.2 = A
    · have hpmem : (p.1, A) ∈ p :: rest' := by
        rw [← hp]
        simp
      have hβne : p.1 ≠ β := hall p.1 hpmem
      have frame := uninstallAnchorStep_frame st0 cur p.1 hwf J1 J7
        (fun ea hea => J8 p.1 ea hpmem hea)
      rw [if_pos hp]
      have ihres := ih (uninstallAnchorStep cur p.1) hndt.2
        (fun a ha => hall a (List.mem_cons_of_mem _ ha))
        (frame.1.trans J1)
        (fun q hq => J7 q (frame.2.2.2.2.2.2 q hq))
        (fun a ea ha hea => by
          have hane : a ≠ p.1 := by
            intro he
            exact hndt.1 (he ▸ mem_keysOf_of_mem ha)
          rw [frame.2.2.2.2.2.1 a ea hane hea]
          exact J8 a ea (List.mem_cons_of_mem _ ha) hea)
      refine ⟨ihres.1.trans frame.1, ?_, ?_, ?_, ?_, ?_⟩
      · rw [ihres.2.1, frame.2.1 β (fun he => hβne he.symm)]
      · rw [ihres.2.2.1, frame.2.2.1 β (fun he => hβne he.symm)]
      · rw [ihres.2.2.2.1, frame.2.2.2.1 β (fun he => hβne he.symm)]
      · rw [ihres.2.2.2.2.1, frame.2.2.2.2.1 β (fun he => hβne he.symm)]
      · intro eb heb
        rw [ihres.2.2.2.2.2 eb heb, frame.2.2.2.2.2.1 β eb (fun he => hβne he.symm) heb]
    · rw [if_neg hp]
      exact ih cur hndt.2 (fun a ha => hall a (List.mem_cons_of_mem _ ha)) J1 J7
        (fun a ea ha hea => J8 a ea (List.mem_cons_of_mem _ ha) hea)

end GameSwf

/-- The flat-file repair loop over a snapshot: files never repaired (their
snapshot owner is not the uninstalled mod) keep their live bytes and their
ownership entry. -/
theorem filesFold_nonowner {ctx : FilesCtx} (A f : String) :
    ∀ (snap : List (String × String)) (st st' : GameFilesState),
    (∀ p ∈ snap, p.2 = A → p.1 ≠ f) →
    snap.foldlM (fun s p => if p.2 = A then GameFilesClass.repairFile ctx s p.1
      else some s) st = some st' →
    st'.live f = st.live f ∧
    alget st'.modifiedFilesMap f = alget st.modifiedFilesMap f := by
  intro snap
  induction snap with
  | nil =>
    intro st st' _ h
    cases h
    exact ⟨rfl, rfl⟩
  | cons p rest ih =>
    intro st st' hall h
    rw [List.foldlM_cons] at h
    by_cases hp : p.2 = A
    · rw [if_pos hp] at h
      cases hr : GameFilesClass.repairFile ctx st p.1 with
      | none => rw [hr] at h; cases h
      | some s₁ =>
        rw [hr] at h
        have hpf : f ≠ p.1 := fun he => hall p (List.mem_cons_self p rest) hp (he ▸ rfl)
        have hother := GameFilesClass.repairFile_other hpf hr
        have ihres := ih s₁ st' (fun q hq hqA => hall q (List.mem_cons_of_mem _ hq) hqA) h
        exact ⟨ihres.1.trans hother.1, ihres.2.trans hother.2.1⟩
    · rw [if_neg hp] at h
      exact ih st st' (fun q hq hqA => hall q (List.mem_cons_of_mem _ hq) hqA) h

/-- Claim C6 — Uninstalling a non-owner is a no-op per unit.  Flat overlay:
for any file whose recorded owner `B` differs from the uninstalled mod `A`,
`GameFiles.uninstallMod A` leaves the file's live bytes and its ownership
entry unchanged.  Container overlay: for any anchor whose recorded owner
differs from `A`, `GameSwf.uninstallMod A` leaves its `modifiedAnchorsMap`
entry, backed-up script, clone-anchor id, live AS3 text, symbol table, and
bound element unchanged (given the id well-formedness the import routines
maintain).  In particular, after a force-install reassigned unit `U` to mod
`Bn ≠ A`, a subsequent `uninstallMod A` leaves `U` owned by `Bn` with
`Bn`'s bytes live. -/
theorem spec_C6 (ctx : FilesCtx) (fst : GameFilesState) (A : String)
    (hnd : (keysOf fst.modifiedFilesMap).Nodup)
    (f B : String) (hf : alget fst.modifiedFilesMap f = some B) (hBA : B ≠ A)
    (sst : GameSwfState) (hwf : GameSwf.SwfWf sst)
    (hsnd : (keysOf sst.modifiedAnchorsMap).Nodup)
    (β Bs : String) (hβ : alget sst.modifiedAnchorsMap β = some Bs) (hBsA : Bs ≠ A) :
    (∀ st', GameFilesClass.uninstallMod ctx fst A = some st' →
      st'.live f = fst.live f ∧ alget st'.modifiedFilesMap f = some B) ∧
    (alget (GameSwf.uninstallMod sst A).modifiedAnchorsMap β = some Bs ∧
     (GameSwf.uninstallMod sst A).as3 β = sst.as3 β ∧
     alget (GameSwf.uninstallMod sst A).scripts β = alget sst.scripts β ∧
     alget (GameSwf.uninstallMod sst A).anchors β = alget sst.anchors β ∧
     (GameSwf.uninstallMod sst A).symbolTags = sst.symbolTags ∧
     (∀ eb, GameSwf.getTagByName sst.symbolTags β = some eb →
       alget (GameSwf.uninstallMod sst A).elements eb = alget sst.elements eb)) ∧
    (∀ U c Bn st₂, Bn ≠ A → U ∈ ctx.gameFiles →
      alget fst.modifiedFilesMap U = some A →
      GameFilesClass.uninstallMod ctx (GameFilesClass.installFile ctx fst U c Bn) A
        = some st₂ →
      alget st₂.modifiedFilesMap U = some Bn ∧
      (ctx.hash (fst.live U) ≠ ctx.hash c → st₂.live U = c)) := by
  have hflat : ∀ (st : GameFilesState) (g C : String) (st' : GameFilesState),
      (keysOf st.modifiedFilesMap).Nodup →
      alget st.modifiedFilesMap g = some C → C ≠ A →
      GameFilesClass.uninstallMod ctx st A = some st' →
      st'.live g = st.live g ∧ alget st'.modifiedFilesMap g = some C := by
    intro st g C st' hnd' hg hCA h
    have hall : ∀ p ∈ st.modifiedFilesMap, p.2 = A → p.1 ≠ g := by
      intro p hp hpA hpg
      have : alget st.modifiedFilesMap p.1 = some p.2 := alget_of_mem_nodup hnd' hp
      rw [hpg, hg] at this
      injection this with this
      exact hCA (this.trans hpA)
    unfold GameFilesClass.uninstallMod at h
    have := filesFold_nonowner A g st.modifiedFilesMap st st' hall h
    exact ⟨this.1, this.2.trans hg⟩
  refine ⟨fun st' h => hflat fst f B st' hnd hf hBA h, ?_, ?_⟩
  · -- container overlay via the fold frame
    have hall : ∀ a, (a, A) ∈ sst.modifiedAnchorsMap → a ≠ β := by
      intro a ha hab
      have : alget sst.modifiedAnchorsMap a = some A := alget_of_mem_nodup hsnd ha
      rw [hab, hβ] at this
      injection this with this
      exact hBsA this
    have hfold := GameSwf.uninstallMod_fold_frame sst A β hwf
      sst.modifiedAnchorsMap sst hsnd hall rfl (fun p hp => hp)
      (fun a ea _ _ => Or.inl rfl)
    unfold GameSwf.uninstallMod
    dsimp only
    refine ⟨by rw [hfold.2.1]; exact hβ, hfold.2.2.2.2.1, hfold.2.2.1,
      hfold.2.2.2.1, hfold.1, hfold.2.2.2.2.2⟩
  · -- force-install scenario
    intro U c Bn st₂ hBnA hU hUA h
    have howner : alget (GameFilesClass.installFile ctx fst U c Bn).modifiedFilesMap U
        = some Bn := by
      cases hc : GameFilesClass.shouldCopyOrig ctx fst U with
      | true =>
        rw [GameFilesClass.installFile_eq_of_copy_true hU hc]
        exact alget_alset_self _ _ _
      | false =>
        rw [GameFilesClass.installFile_eq_of_copy_false hU hc]
        exact alget_alset_self _ _ _
    have hndI : (keysOf (GameFilesClass.installFile ctx fst U c Bn).modifiedFilesMap).Nodup := by
      cases hc : GameFilesClass.shouldCopyOrig ctx fst U with
      | true =>
        rw [GameFilesClass.installFile_eq_of_copy_true hU hc]
        exact keysOf_alset_nodup _ _ hnd
      | false =>
        rw [GameFilesClass.installFile_eq_of_copy_false hU hc]
        exact keysOf_alset_nodup _ _ hnd
    have hres := hflat (GameFilesClass.installFile ctx fst U c Bn) U Bn st₂ hndI
      howner hBnA h
    refine ⟨hres.2, fun hdiff => ?_⟩
    rw [hres.1]
    cases hc : GameFilesClass.shouldCopyOrig ctx fst U with
    | true =>
      rw [GameFilesClass.installFile_eq_of_copy_true hU hc]
      dsimp only
      rw [if_pos hdiff]
      exact setFun_self _ _ _
    | false =>
      rw [GameFilesClass.installFile_eq_of_copy_false hU hc]
      dsimp only
      rw [if_pos hdiff]
      exact setFun_self _ _ _

/-- A two-file context for exercising the uninstall theorems. -/
def c6ctx : FilesCtx :=
  { hash := fun b =>
      if b = [1] then "h1" else if b = [2] then "h2" else if b = [7] then "h7" else "hX"
    gameFiles := ["a.png", "b.png"] }

/-- Flat state for the `spec_C6` instance: `"a.png"` owned by `"mA"`,
`"b.png"` owned by `"mB"`, both with pristine cache copies. -/
def c6fst : GameFilesState :=
  { origFiles := [("a.png", "h1"), ("b.png", "h2")]
    modFiles := [("a.png", "hX"), ("b.png", "h3")]
    modifiedFilesMap := [("a.png", "mA"), ("b.png", "mB")]
    vault := fun bn =>
      if bn = "a.png" then some [1] else if bn = "b.png" then some [2] else none
    live := fun f => if f = "a.png" then [9] else if f = "b.png" then [3] else [] }

/-- The state `GameFiles.uninstallMod "mA"` produces from `c6fst`: only
`"a.png"` is repaired. -/
def c6post : GameFilesState :=
  { c6fst with
    live := setFun c6fst.live "a.png" [1]
    modFiles := alerase c6fst.modFiles "a.png"
    modifiedFilesMap := alerase c6fst.modifiedFilesMap "a.png" }

/-- Container state for the `spec_C6` instance: anchor `"Hero"` owned by
`"mB"`, anchor `"Villain"` owned by `"mA"`; every element is a sound, so
no sprite dependencies exist. -/
def c6sst : GameSwfState :=
  { anchors := [("Hero", 100), ("Villain", 200)]
    scripts := []
    installedMods := ["mA", "mB"]
    modifiedAnchorsMap := [("Hero", "mB"), ("Villain", "mA")]
    as3 := fun a => if a = "main" then some "code" else none
    symbolTags := [(5, "Hero"), (6, "Villain")]
    elements := [(5, .sound [10]), (6, .sound [20]), (100, .sound [30]),
      (200, .sound [40])] }

/-- `c6sst` satisfies the SWF wellformedness the import routines maintain:
symbol-tag keys are distinct, clone-anchor ids carry no symbol tag, and no
element needs another anchor's tag (every element is a sound). -/
theorem c6sst_wf : GameSwf.SwfWf c6sst := by
  refine ⟨by decide, ?_, ?_⟩
  · intro p hp
    fin_cases hp <;> rfl
  · intro a ea el b eb hab hea hel heb
    have hmem : (ea, el) ∈ c6sst.elements := mem_of_alget hel
    have hne : neededOf el = [] := by
      fin_cases hmem <;> rfl
    rw [hne]
    exact List.not_mem_nil _

/-- Witness for the claim-C6 theorem: mod `"mA"` is uninstalled while
`"b.png"` is owned by `"mB"` and anchor `"Hero"` is owned by `"mB"`; the
non-owner file keeps its live bytes and owner, and the non-owner anchor
keeps its ledger entry and symbol table. -/
theorem spec_C6_witness :
    c6post.live "b.png" = [3] ∧
    alget c6post.modifiedFilesMap "b.png" = some "mB" ∧
    alget (GameSwf.uninstallMod c6sst "mA").modifiedAnchorsMap "Hero" = some "mB" ∧
    (GameSwf.uninstallMod c6sst "mA").symbolTags = c6sst.symbolTags ∧
    (GameSwf.uninstallMod c6sst "mA").as3 "Hero" = c6sst.as3 "Hero" := by
  have h := spec_C6 c6ctx c6fst "mA" (by decide) "b.png" "mB" (by rfl) (by decide)
    c6sst c6sst_wf (by decide) "Hero" "mB" (by rfl) (by decide)
  have hu : GameFilesClass.uninstallMod c6ctx c6fst "mA" = some c6post := by rfl
  obtain ⟨h1, h2⟩ := h.1 c6post hu
  refine ⟨h1.trans rfl, h2, h.2.1.1, h.2.1.2.2.2.2.1, h.2.1.2.1⟩

end BhModLoader
